import Mathlib

/-!
Shallow embedding of the PHP Enhanced Pro workspace symbol index core
(`extension.js`): the lexical scanners, the symbol extractor, the
versioned workspace symbol index with its retraction protocol, the
members-by-class cache, the docblock parser, the local/global definition
resolution, the lazily rebuilt reference index, and the per-query
variable type inference.  JavaScript `Map`s are modelled as
insertion-ordered association lists, regular-expression scans as
explicit character-level scanners with the same match semantics, and
the mutable module state as an explicit `IndexState` record threaded
through the operations.
-/

/-- Character codes used throughout (written numerically so that the
scanner definitions stay close to the JS regex character classes). -/
def chBackslash : Char := Char.ofNat 92

def chDollar : Char := Char.ofNat 36

def chLBrace : Char := Char.ofNat 123

def chRBrace : Char := Char.ofNat 125

def chSQuote : Char := Char.ofNat 39

def chDQuote : Char := Char.ofNat 34

/-- JS `\s` restricted to the ASCII whitespace that can occur in the
inputs: space, tab, newline, vertical tab, form feed, carriage return. -/
def isJsSpaceChar (c : Char) : Bool :=
  (9 ≤ c.toNat && c.toNat ≤ 13) || c.toNat = 32

/-- ASCII uppercase letter (JS `[A-Z]`). -/
def isAsciiUpperChar (c : Char) : Bool := 65 ≤ c.toNat && c.toNat ≤ 90

/-- ASCII lowercase letter (JS `[a-z]`). -/
def isAsciiLowerChar (c : Char) : Bool := 97 ≤ c.toNat && c.toNat ≤ 122

/-- ASCII digit (JS `[0-9]`). -/
def isAsciiDigitChar (c : Char) : Bool := 48 ≤ c.toNat && c.toNat ≤ 57

/-- JS `\w`: `[A-Za-z0-9_]` (ASCII only; used for `\b` boundaries). -/
def isJsWordChar (c : Char) : Bool :=
  isAsciiUpperChar c || isAsciiLowerChar c || isAsciiDigitChar c || c.toNat = 95

/-- The identifier start class `[A-Za-z_\x80-\xff]` of the source regexes. -/
def isIdentStartChar (c : Char) : Bool :=
  isAsciiUpperChar c || isAsciiLowerChar c || c.toNat = 95 ||
    (128 ≤ c.toNat && c.toNat ≤ 255)

/-- The identifier continuation class `[\w\x80-\xff]`. -/
def isIdentChar (c : Char) : Bool := isIdentStartChar c || isAsciiDigitChar c

/-- Start class `[\\A-Za-z_\x80-\xff]` (identifier start or backslash). -/
def isBsIdentStartChar (c : Char) : Bool := isIdentStartChar c || c = chBackslash

/-- Continuation class `[\\\w\x80-\xff]`. -/
def isBsIdentChar (c : Char) : Bool := isIdentChar c || c = chBackslash

/-- JS `String.prototype.trim` on a character list. -/
def jsTrimList (s : List Char) : List Char :=
  ((s.dropWhile isJsSpaceChar).reverse.dropWhile isJsSpaceChar).reverse

/-- JS `String.prototype.trim`. -/
def jsTrim (s : String) : String := String.mk (jsTrimList s.toList)

/-- Split a character list at every occurrence of a separator character
(JS `String.prototype.split` with a one-character separator). -/
def splitOnCharAux (sep : Char) : List Char → List Char → List (List Char)
  | [], acc => [acc.reverse]
  | c :: rest, acc =>
    if c = sep then acc.reverse :: splitOnCharAux sep rest []
    else splitOnCharAux sep rest (c :: acc)

def splitOnChar (sep : Char) (s : List Char) : List (List Char) :=
  splitOnCharAux sep s []

/-- `List.isPrefixOf` as the JS `String.prototype.startsWith`. -/
def jsStartsWithList (pre s : List Char) : Bool := pre.isPrefixOf s

def jsStartsWith (s pre : String) : Bool := jsStartsWithList pre.toList s.toList

/-- JS `String.prototype.endsWith`. -/
def jsEndsWith (s suf : String) : Bool := suf.toList.isSuffixOf s.toList

/-- Does `pat` occur as a contiguous substring of `s`?  (JS
`String.prototype.includes`.) -/
def containsSubList (pat : List Char) : List Char → Bool
  | [] => pat.isPrefixOf []
  | c :: rest => pat.isPrefixOf (c :: rest) || containsSubList pat rest

def jsIncludes (s pat : String) : Bool := containsSubList pat.toList s.toList

/-- Index of the first occurrence of `pat` in `s` (JS `indexOf`). -/
def indexOfSubAux (pat : List Char) : List Char → Nat → Option Nat
  | [], i => if pat.isPrefixOf [] then some i else none
  | c :: rest, i =>
    if pat.isPrefixOf (c :: rest) then some i else indexOfSubAux pat rest (i + 1)

def indexOfSub (s pat : List Char) : Option Nat := indexOfSubAux pat s 0

/-- Index of the first occurrence of character `ch` at or after `start`
(JS `String.prototype.indexOf(ch, start)`). -/
def indexOfCharFromAux (ch : Char) : List Char → Nat → Option Nat
  | [], _ => none
  | c :: rest, i => if c = ch then some i else indexOfCharFromAux ch rest (i + 1)

def indexOfCharFrom (s : List Char) (ch : Char) (start : Nat) : Option Nat :=
  indexOfCharFromAux ch (s.drop start) start

/-- Index of the last occurrence of `pat` in `s` (JS `lastIndexOf`). -/
def lastIndexOfSub (s pat : List Char) : Option Nat :=
  let rec go : List Char → Nat → Option Nat → Option Nat
    | [], _, best => best
    | c :: rest, i, best =>
      go rest (i + 1) (if pat.isPrefixOf (c :: rest) then some i else best)
  go s 0 none

/-- Index of the last occurrence of `pat` starting at or before `bound`
(JS `lastIndexOf(pat, bound)`). -/
def lastIndexOfSubBefore (s pat : List Char) (bound : Nat) : Option Nat :=
  lastIndexOfSub (s.take (bound + pat.length)) pat

/-- JS `str.split(sep).pop()` for a string separator: the part after the
last occurrence of `sep` (the whole string when `sep` is absent). -/
def lastSplitPiece (s : List Char) (sep : List Char) : List Char :=
  match lastIndexOfSub s sep with
  | none => s
  | some i => s.drop (i + sep.length)

/-- `word.split('\\').pop()` on strings. -/
def lastBackslashSegment (s : String) : String :=
  String.mk (lastSplitPiece s.toList [chBackslash])

/-- JS `replace(/^\\+/, '')`: strip all leading backslashes. -/
def stripLeadingBackslashes (s : String) : String :=
  String.mk (s.toList.dropWhile (fun c => c = chBackslash))

/-- JS `replace(/^\$/, '')`: strip a single leading dollar sign. -/
def stripLeadingDollar (s : String) : String :=
  match s.toList with
  | c :: rest => if c = chDollar then String.mk rest else s
  | [] => s

/-- Lowercase a character list (ASCII; JS `toLowerCase` on our inputs). -/
def jsToLowerList (s : List Char) : List Char := s.map Char.toLower

/-- Uppercase (ASCII; JS `toUpperCase` on our inputs). -/
def jsToUpper (s : String) : String := String.mk (s.toList.map Char.toUpper)

/-- Collapse every whitespace run to one space (JS `replace(/\s+/g, ' ')`). -/
def collapseWsAux : List Char → Bool → List Char
  | [], _ => []
  | c :: rest, prevWs =>
    if isJsSpaceChar c then
      if prevWs then collapseWsAux rest true else ' ' :: collapseWsAux rest true
    else c :: collapseWsAux rest false

def collapseWs (s : List Char) : List Char := collapseWsAux s false

/-- Split on whitespace runs and keep the first piece
(JS `s.split(/\s+/)[0]` for a trimmed `s`). -/
def firstWsToken (s : List Char) : List Char := s.takeWhile (fun c => !isJsSpaceChar c)

/-- An insertion-ordered association list modelling a JavaScript `Map`:
`set` keeps the original position of an existing key, `delete` removes
it, iteration follows insertion order. -/
structure JsMap (α β : Type) where
  entries : List (α × β)
deriving DecidableEq, Repr

def JsMap.empty {α β : Type} : JsMap α β := ⟨[]⟩

def JsMap.get {α β : Type} [DecidableEq α] (m : JsMap α β) (k : α) : Option β :=
  (m.entries.find? (fun e => e.1 = k)).map (·.2)

def JsMap.setEntries {α β : Type} [DecidableEq α] :
    List (α × β) → α → β → List (α × β)
  | [], k, v => [(k, v)]
  | e :: rest, k, v =>
    if e.1 = k then (k, v) :: rest else e :: JsMap.setEntries rest k v

def JsMap.set {α β : Type} [DecidableEq α] (m : JsMap α β) (k : α) (v : β) :
    JsMap α β := ⟨JsMap.setEntries m.entries k v⟩

def JsMap.delete {α β : Type} [DecidableEq α] (m : JsMap α β) (k : α) : JsMap α β :=
  ⟨m.entries.filter (fun e => e.1 ≠ k)⟩

def JsMap.keys {α β : Type} (m : JsMap α β) : List α := m.entries.map (·.1)

/-- A zero-based line/character position (vscode `Position`). -/
structure Position where
  line : Nat
  character : Nat
deriving DecidableEq, Repr

/-- A vscode `Location` holding a file identity and the start position
(declaration locations in the index are built from a single position). -/
structure Location where
  uri : String
  pos : Position
deriving DecidableEq, Repr

/-- A reference-index location: file identity plus a start/end range. -/
structure RefLocation where
  uri : String
  startPos : Position
  endPos : Position
deriving DecidableEq, Repr

/-- A text document as consumed from the editor layer: file identity,
language id and full text. -/
structure Document where
  uri : String
  languageId : String
  text : String
deriving DecidableEq, Repr

/-- The vscode `SymbolKind` values used by the extractor. -/
inductive SymbolKind where
  | classKind
  | interface
  | enum
  | method
  | property
  | constant
  | function
  | variable
deriving DecidableEq, Repr

/-- `document.positionAt(offset)`: line = newlines before the offset,
character = distance from the last newline. -/
def positionAt (text : List Char) (offset : Nat) : Position :=
  let head := text.take offset
  let line := head.count '\n'
  let character := (head.reverse.takeWhile (fun c => c ≠ '\n')).length
  ⟨line, character⟩

/-- `document.offsetAt(position)` over the text split into lines. -/
def offsetAt (text : List Char) (p : Position) : Nat :=
  let lines := splitOnChar '\n' text
  let before := (lines.take p.line).foldl (fun acc l => acc + l.length + 1) 0
  before + min p.character ((lines.drop p.line).headD []).length

/-- `document.lineAt(line).text`. -/
def lineAtText (text : List Char) (line : Nat) : List Char :=
  ((splitOnChar '\n' text).drop line).headD []

/-- Per-class relationship metadata (`ClassInfo`); member symbols carry a
record with only `containerName` set, class symbols a full record. -/
structure ClassInfo where
  fqn : String := ""
  shortName : String := ""
  kind : SymbolKind := .classKind
  uri : String := ""
  containerName : String := ""
  extendsFqns : List String := []
  implementsFqns : List String := []
deriving DecidableEq, Repr

/-- A parsed callable signature (label, one label per parameter,
optional raw docblock as documentation). -/
structure PhpSignature where
  label : String
  documentation : Option String
  parameters : List String
deriving DecidableEq, Repr

/-- One symbol record produced by `extractPhpSymbolsFromDocument`. -/
structure PhpSymbol where
  key : String
  location : Location
  kind : Option SymbolKind := none
  signature : Option PhpSignature := none
  classInfo : Option ClassInfo := none
deriving DecidableEq, Repr

/-- A `phpWorkspaceSymbolInfo` entry. -/
structure SymbolInfoEntry where
  uriKey : String
  kind : SymbolKind
  containerName : String
deriving DecidableEq, Repr

/-- A `phpWorkspaceFunctionInfoByKey` entry: originating file plus the
signature fields. -/
structure SigEntry where
  uriKey : String
  label : String
  documentation : Option String
  parameters : List String
deriving DecidableEq, Repr

/-- The members-by-class query result. -/
structure PhpMembers where
  methods : List String
  properties : List String
  constants : List String
deriving DecidableEq, Repr

/-- A `phpWorkspaceMembersCache` entry: the index version the value was
computed against, and the value. -/
structure MembersCacheEntry where
  version : Nat
  value : PhpMembers
deriving DecidableEq, Repr

/-- The mutable module state of the workspace symbol index:
`phpWorkspaceIndex`, `phpWorkspaceIndexKeysByUri`,
`phpWorkspaceIndexVersion`, `phpWorkspaceMembersCache`,
`phpWorkspaceSymbolInfo`, `phpWorkspaceClassInfoByFqn`,
`phpWorkspaceClassFqnsByShortName`, `phpWorkspaceFunctionInfoByKey`. -/
structure IndexState where
  index : JsMap String (List Location)
  keysByUri : JsMap String (List String)
  version : Nat
  membersCache : JsMap String MembersCacheEntry
  symbolInfo : JsMap String (List SymbolInfoEntry)
  classInfoByFqn : JsMap String ClassInfo
  classFqnsByShortName : JsMap String (List String)
  functionInfoByKey : JsMap String (List SigEntry)
deriving DecidableEq, Repr

/-- The initial module state (all maps empty, version 0). -/
def initialIndexState : IndexState :=
  ⟨JsMap.empty, JsMap.empty, 0, JsMap.empty, JsMap.empty, JsMap.empty,
   JsMap.empty, JsMap.empty⟩

/-- Consume a literal character sequence, returning the rest. -/
def eatLit : List Char → List Char → Option (List Char)
  | [], s => some s
  | _ :: _, [] => none
  | c :: lits, x :: xs => if x = c then eatLit lits xs else none

/-- Case-insensitive literal (for `/i` regex flags; ASCII lowering). -/
def eatLitCI : List Char → List Char → Option (List Char)
  | [], s => some s
  | _ :: _, [] => none
  | c :: lits, x :: xs => if x.toLower = c.toLower then eatLitCI lits xs else none

/-- `\s*`. -/
def eatWs (s : List Char) : List Char := s.dropWhile isJsSpaceChar

/-- `\s+`: at least one whitespace character, then the rest. -/
def eatWs1 (s : List Char) : Option (List Char) :=
  match s with
  | c :: rest => if isJsSpaceChar c then some (eatWs rest) else none
  | [] => none

/-- Greedy `[A-Za-z_\x80-\xff][\w\x80-\xff]*`. -/
def takeIdentTok (s : List Char) : Option (List Char × List Char) :=
  match s with
  | c :: rest =>
    if isIdentStartChar c then
      let tail := rest.takeWhile isIdentChar
      some (c :: tail, rest.drop tail.length)
    else none
  | [] => none

/-- Greedy `[\\A-Za-z_\x80-\xff][\\\w\x80-\xff]*` (backslashes allowed). -/
def takeBsIdentTok (s : List Char) : Option (List Char × List Char) :=
  match s with
  | c :: rest =>
    if isBsIdentStartChar c then
      let tail := rest.takeWhile isBsIdentChar
      some (c :: tail, rest.drop tail.length)
    else none
  | [] => none

/-- Greedy `\w+` (ASCII word characters, at least one). -/
def takeWordTok (s : List Char) : Option (List Char × List Char) :=
  match s with
  | c :: rest =>
    if isJsWordChar c then
      let tail := rest.takeWhile isJsWordChar
      some (c :: tail, rest.drop tail.length)
    else none
  | [] => none

/-- A `\b` before a pattern that starts with a word character: the
previous character (if any) must not be a JS word character. -/
def atWordBoundary (prev : Option Char) : Bool :=
  match prev with
  | none => true
  | some c => !isJsWordChar c

/-- `^` under the `m` flag: start of text or just after a newline. -/
def atLineStart (prev : Option Char) : Bool :=
  match prev with
  | none => true
  | some c => c = '\n'

/-- A regex match attempt at one position: given the previous character,
the remaining text and the absolute offset, produce a payload and the
length of `match[0]` (how far `lastIndex` advances). -/
def RegexStep (α : Type) : Type := Option Char → List Char → Nat → Option (α × Nat)

/-- All matches of a `/g` regex: try each position left to right; on a
match, continue after its end (as JS `exec` with `lastIndex`). -/
def scanAllAux {α : Type} (step : RegexStep α) :
    Nat → Option Char → List Char → Nat → List α
  | 0, _, _, _ => []
  | _ + 1, _, [], _ => []
  | fuel + 1, prev, c :: rest, off =>
    match step prev (c :: rest) off with
    | some (a, n) =>
      let m := max n 1
      a :: scanAllAux step fuel (((c :: rest).drop (m - 1)).head?)
            ((c :: rest).drop m) (off + m)
    | none => scanAllAux step fuel (some c) rest (off + 1)

def scanAll {α : Type} (step : RegexStep α) (s : List Char) : List α :=
  scanAllAux step (s.length + 1) none s 0

/-- The first (leftmost) match of a regex, as JS `String.match` /
single `exec`. -/
def scanFirstAux {α : Type} (step : RegexStep α) :
    Nat → Option Char → List Char → Nat → Option α
  | 0, _, _, _ => none
  | _ + 1, prev, [], off => (step prev [] off).map (·.1)
  | fuel + 1, prev, c :: rest, off =>
    match step prev (c :: rest) off with
    | some (a, _) => some a
    | none => scanFirstAux step fuel (some c) rest (off + 1)

def scanFirst {α : Type} (step : RegexStep α) (s : List Char) : Option α :=
  scanFirstAux step (s.length + 1) none s 0

/-- A match of `\b(?:abstract\s+|final\s+)?(class|interface|trait|enum)\s+(name)\b`. -/
structure ClassDeclMatch where
  keyword : String
  name : String
  matchIndex : Nat
  nameIndex : Nat
deriving DecidableEq, Repr

/-- `(class|interface|trait|enum)` alternation. -/
def eatClassKeyword (s : List Char) : Option (String × List Char) :=
  match eatLit "class".toList s with
  | some r => some ("class", r)
  | none =>
    match eatLit "interface".toList s with
    | some r => some ("interface", r)
    | none =>
      match eatLit "trait".toList s with
      | some r => some ("trait", r)
      | none =>
        match eatLit "enum".toList s with
        | some r => some ("enum", r)
        | none => none

/-- `classDeclRe`: one match attempt.  The optional modifier alternation
backtracks exactly as the regex does: a modifier branch is only kept if
the rest of the pattern succeeds after it. -/
def classDeclStep : RegexStep ClassDeclMatch := fun prev s off =>
  if !atWordBoundary prev then none else
  let tryFrom : List Char → Option (ClassDeclMatch × Nat) := fun s1 =>
    match eatClassKeyword s1 with
    | none => none
    | some (kw, s2) =>
      match eatWs1 s2 with
      | none => none
      | some s3 =>
        match takeIdentTok s3 with
        | none => none
        | some (name, s4) =>
          if (s4.head?.map isJsWordChar).getD false then none
          else
            some (⟨kw, String.mk name, off, off + (s.length - s3.length)⟩,
                  s.length - s4.length)
  match ((eatLit "abstract".toList s).bind eatWs1).bind tryFrom with
  | some r => some r
  | none =>
    match ((eatLit "final".toList s).bind eatWs1).bind tryFrom with
    | some r => some r
    | none => tryFrom s

/-- A match of `\bfunction\s+&?\s*(name)\s*\(`. -/
structure FuncDeclMatch where
  name : String
  matchIndex : Nat
  nameIndex : Nat
deriving DecidableEq, Repr

def funcDeclStep : RegexStep FuncDeclMatch := fun prev s off =>
  if !atWordBoundary prev then none else
  match (eatLit "function".toList s).bind eatWs1 with
  | none => none
  | some s1 =>
    let s2 := match s1 with
      | c :: rest => if c = '&' then rest else s1
      | [] => s1
    let s3 := eatWs s2
    match takeIdentTok s3 with
    | none => none
    | some (name, s4) =>
      match eatWs s4 with
      | c :: s6 =>
        if c = '(' then
          some (⟨String.mk name, off, off + (s.length - s3.length)⟩,
                s.length - s6.length)
        else none
      | [] => none

/-- A match of `\b(?:public|protected|private|var)\s+(?:static\s+)?\$(\w+)\b`:
payload is the property name and its absolute index. -/
def propDeclStep : RegexStep (String × Nat) := fun prev s off =>
  if !atWordBoundary prev then none else
  let kw :=
    match eatLit "public".toList s with
    | some r => some r
    | none =>
      match eatLit "protected".toList s with
      | some r => some r
      | none =>
        match eatLit "private".toList s with
        | some r => some r
        | none => eatLit "var".toList s
  match kw.bind eatWs1 with
  | none => none
  | some s1 =>
    let s2 := match (eatLit "static".toList s1).bind eatWs1 with
      | some r => r
      | none => s1
    match s2 with
    | c :: s3 =>
      if c = chDollar then
        match takeWordTok s3 with
        | some (name, s4) =>
          some ((String.mk name, off + (s.length - s3.length)), s.length - s4.length)
        | none => none
      else none
    | [] => none

/-- A match of `\bconst\s+(name)\b`: the constant name and its index. -/
def constDeclStep : RegexStep (String × Nat) := fun prev s off =>
  if !atWordBoundary prev then none else
  match (eatLit "const".toList s).bind eatWs1 with
  | none => none
  | some s1 =>
    match takeIdentTok s1 with
    | none => none
    | some (name, s2) =>
      if (s2.head?.map isJsWordChar).getD false then none
      else some ((String.mk name, off + (s.length - s1.length)), s.length - s2.length)

/-- A match of `\bconst\s+(name)\s*=` (global constants): name, name
index and match index (the latter drives the class-range exclusion). -/
structure GlobalConstMatch where
  name : String
  nameIndex : Nat
  matchIndex : Nat
deriving DecidableEq, Repr

def globalConstStep : RegexStep GlobalConstMatch := fun prev s off =>
  if !atWordBoundary prev then none else
  match (eatLit "const".toList s).bind eatWs1 with
  | none => none
  | some s1 =>
    match takeIdentTok s1 with
    | none => none
    | some (name, s2) =>
      match eatWs s2 with
      | c :: s3 =>
        if c = '=' then
          some (⟨String.mk name, off + (s.length - s1.length), off⟩,
                s.length - s3.length)
        else none
      | [] => none

/-- A match of `\bdefine\s*\(\s*['"]([A-Za-z0-9_]+)['"]`. -/
def defineStep : RegexStep (String × Nat) := fun prev s off =>
  if !atWordBoundary prev then none else
  match eatLit "define".toList s with
  | none => none
  | some s1 =>
    match eatWs s1 with
    | c :: s2 =>
      if c ≠ '(' then none else
      match eatWs s2 with
      | q :: s3 =>
        if q = chSQuote ∨ q = chDQuote then
          match takeWordTok s3 with
          | some (name, s4) =>
            match s4 with
            | q2 :: s5 =>
              if q2 = chSQuote ∨ q2 = chDQuote then
                some ((String.mk name, off + (s.length - s3.length)),
                      s.length - s5.length)
              else none
            | [] => none
          | none => none
        else none
      | [] => none
    | [] => none

/-- `getPhpNamespace`: first match of `/^\s*namespace\s+([^;{]+)\s*[;{]/m`
(the `\s*` may span newlines; the greedy `[^;{]+` run must be followed
by `;` or `{`). -/
def namespaceStep : RegexStep String := fun prev s _ =>
  if !atLineStart prev then none else
  let s1 := eatWs s
  match (eatLit "namespace".toList s1).bind eatWs1 with
  | none => none
  | some s2 =>
    let body := s2.takeWhile (fun c => !(c = ';' || c = chLBrace))
    if body.length = 0 then none
    else
      match s2.drop body.length with
      | c :: _ =>
        if c = ';' || c = chLBrace then some (String.mk (jsTrimList body), 1)
        else none
      | [] => none

def getPhpNamespace (text : List Char) : String :=
  (scanFirst namespaceStep text).getD ""

/-- `findMatchingBrace(text, startIndex)`: counts nested braces from
`startIndex`; `none` models the JS `-1`.  The depth is an integer: a
stray close brace drives it negative exactly as in the source. -/
def findMatchingBraceAux : List Char → Nat → Int → Option Nat
  | [], _, _ => none
  | c :: rest, i, depth =>
    if c = chLBrace then findMatchingBraceAux rest (i + 1) (depth + 1)
    else if c = chRBrace then
      if depth - 1 = 0 then some i else findMatchingBraceAux rest (i + 1) (depth - 1)
    else findMatchingBraceAux rest (i + 1) depth

def findMatchingBrace (text : List Char) (startIndex : Nat) : Option Nat :=
  findMatchingBraceAux (text.drop startIndex) startIndex 0

/-- One match of `/^\s*use\s+([^;]+);/gm`: the captured clause. -/
def useClauseStep : RegexStep (List Char) := fun prev s _ =>
  if !atLineStart prev then none else
  let s1 := eatWs s
  match (eatLit "use".toList s1).bind eatWs1 with
  | none => none
  | some s2 =>
    let clause := s2.takeWhile (fun c => c ≠ ';')
    if clause.length = 0 then none
    else
      match s2.drop clause.length with
      | c :: s3 => if c = ';' then some (clause, s.length - s3.length) else none
      | [] => none

/-- Try `/^(.*)\s+as\s+([A-Za-z_\x80-\xff][\w\x80-\xff]*)$/i` with the
split point of the greedy `(.*)` fixed at `i` (the dot does not match
newlines). -/
def asSplitAt (part : List Char) (i : Nat) : Option (List Char × List Char) :=
  let a := part.take i
  if a.any (fun c => c = '\n' || c = '\r') then none
  else
    match eatWs1 (part.drop i) with
    | none => none
    | some r1 =>
      match (eatLitCI "as".toList r1).bind eatWs1 with
      | none => none
      | some r2 =>
        match takeIdentTok r2 with
        | some (alias', []) => some (a, alias')
        | _ => none

/-- The `as`-rename match: the greedy `(.*)` keeps the longest matching
head, so candidate split points are tried from the right. -/
def asSplit (part : List Char) : Option (List Char × List Char) :=
  (List.range (part.length + 1)).reverse.findSome? (asSplitAt part)

/-- `parsePhpUseAliases`: alias → fully-qualified name table from the
`use` declarations. -/
def parsePhpUseAliases (text : List Char) : JsMap String String :=
  let clauses := scanAll useClauseStep text
  clauses.foldl (fun m clauseRaw =>
    let clause := jsTrimList clauseRaw
    if clause.length = 0 then m
    else if jsStartsWithList "function ".toList clause ||
            jsStartsWithList "const ".toList clause then m
    else
      let parts := ((splitOnChar ',' clause).map jsTrimList).filter
        (fun p => p.length ≠ 0)
      parts.foldl (fun m part =>
        let asMatch := asSplit part
        let fqn := stripLeadingBackslashes (jsTrim (String.mk
          (match asMatch with | some (a, _) => a | none => part)))
        let alias' := jsTrim (String.mk
          (match asMatch with
           | some (_, al) => al
           | none => (lastSplitPiece fqn.toList [chBackslash])))
        if alias' ≠ "" ∧ fqn ≠ "" then m.set alias' fqn else m) m) JsMap.empty

/-- `\bextends\s+([\\A-Za-z_\x80-\xff][\\\w\x80-\xff]*)/i`. -/
def extendsStep : RegexStep (List Char) := fun prev s _ =>
  if !atWordBoundary prev then none else
  match (eatLitCI "extends".toList s).bind eatWs1 with
  | none => none
  | some s1 =>
    match takeBsIdentTok s1 with
    | some (tok, rest) => some (tok, s.length - rest.length)
    | none => none

/-- `\bimplements\s+([^{]+)$/i`: the capture must reach the end of the
header with no open brace in it. -/
def implementsStep : RegexStep (List Char) := fun prev s _ =>
  if !atWordBoundary prev then none else
  match (eatLitCI "implements".toList s).bind eatWs1 with
  | none => none
  | some s1 =>
    if s1.length ≠ 0 ∧ s1.all (fun c => c ≠ chLBrace) then some (s1, s.length)
    else none

/-- `replace(/\s*\{.*$/, '')`: cut from the first `\s*{` whose tail has
no newline (the dot does not cross lines; `$` is the end of string). -/
def stripBraceTail (s : List Char) : List Char :=
  let matchAt : Nat → Bool := fun i =>
    let r := (s.drop i).dropWhile isJsSpaceChar
    match r with
    | c :: tail => c = chLBrace && tail.all (fun x => x ≠ '\n' && x ≠ '\r')
    | [] => false
  match (List.range s.length).find? matchAt with
  | some i => s.take i
  | none => s

/-- The `extends` / `implements` targets of a class header
(`parsePhpClassExtendsImplements`). -/
structure ClassExtInfo where
  extendsTargets : List String
  implementsTargets : List String
deriving DecidableEq, Repr

def parsePhpClassExtendsImplements (header : List Char) : ClassExtInfo :=
  let extendsList := match scanFirst extendsStep header with
    | some tok => [jsTrim (String.mk tok)]
    | none => []
  let implementsList := match scanFirst implementsStep header with
    | some cap =>
      (((splitOnChar ',' cap).map jsTrimList).filter (fun p => p.length ≠ 0)).map
        (fun p => jsTrim (String.mk (stripBraceTail p)))
    | none => []
  ⟨extendsList, implementsList⟩

/-- `replace(/^\?/, '')`. -/
def stripLeadingQuestion (s : String) : String :=
  match s.toList with
  | c :: rest => if c = '?' then String.mk rest else s
  | [] => s

/-- `resolvePhpTypeTokenToFqn(token, namespace, useAliases)`. -/
def resolvePhpTypeTokenToFqn (token ns : String) (uses : JsMap String String) :
    String :=
  let raw := jsTrim token
  if raw = "" then ""
  else
    let cleaned := stripLeadingBackslashes (stripLeadingQuestion raw)
    if jsIncludes cleaned "\\" then cleaned
    else
      let aliased := match uses.get cleaned with
        | some v => if v ≠ "" then v else cleaned
        | none => cleaned
      if jsIncludes aliased "\\" then stripLeadingBackslashes aliased
      else if ns ≠ "" then ns ++ "\\" ++ aliased
      else aliased

/-- `findPhpDocblockBeforeOffset(text, offset)`: the nearest docblock
ending before `offset` with only whitespace after it. -/
def findPhpDocblockBeforeOffset (text : List Char) (offset : Nat) : List Char :=
  let head := text.take offset
  match lastIndexOfSub head "*/".toList with
  | none => []
  | some e =>
    match lastIndexOfSubBefore head "/**".toList e with
    | none => []
    | some st =>
      let between := head.drop (e + 2)
      if between.any (fun c => !isJsSpaceChar c) then []
      else (head.take (e + 2)).drop st

/-- `parseDocComment` result: parameter types by `$name`, return type. -/
structure PhpDocInfo where
  params : JsMap String String
  returns : String
deriving DecidableEq, Repr

/-- `docblock.split(/\r?\n/)`. -/
def splitDocLines (s : List Char) : List (List Char) :=
  let pieces := splitOnChar '\n' s
  match pieces.reverse with
  | [] => []
  | last :: initRev =>
    (initRev.reverse.map (fun l =>
      match l.reverse with
      | c :: rest => if c = '\r' then rest.reverse else l
      | [] => l)) ++ [last]

/-- One attempt of
`/@\s*(?:param|phpstan-param|psalm-param)\s+([^\s]+)\s+(\$name)/i`:
payload is (`$name`, type). -/
def paramTagStep : RegexStep (String × String) := fun _ s _ =>
  match s with
  | c :: s1 =>
    if c ≠ '@' then none else
    let s2 := eatWs s1
    let tag :=
      match eatLitCI "param".toList s2 with
      | some r => some r
      | none =>
        match eatLitCI "phpstan-param".toList s2 with
        | some r => some r
        | none => eatLitCI "psalm-param".toList s2
    match tag.bind eatWs1 with
    | none => none
    | some s3 =>
      let ty := s3.takeWhile (fun x => !isJsSpaceChar x)
      if ty.length = 0 then none
      else
        match eatWs1 (s3.drop ty.length) with
        | none => none
        | some s4 =>
          match s4 with
          | d :: s5 =>
            if d = chDollar then
              match takeIdentTok s5 with
              | some (nm, s6) =>
                some ((String.mk (chDollar :: nm), String.mk ty), s.length - s6.length)
              | none => none
            else none
          | [] => none
  | [] => none

/-- One attempt of `/@\s*(?:return|phpstan-return|psalm-return)\s+([^\s]+)/i`. -/
def returnTagStep : RegexStep String := fun _ s _ =>
  match s with
  | c :: s1 =>
    if c ≠ '@' then none else
    let s2 := eatWs s1
    let tag :=
      match eatLitCI "return".toList s2 with
      | some r => some r
      | none =>
        match eatLitCI "phpstan-return".toList s2 with
        | some r => some r
        | none => eatLitCI "psalm-return".toList s2
    match tag.bind eatWs1 with
    | none => none
    | some s3 =>
      let ty := s3.takeWhile (fun x => !isJsSpaceChar x)
      if ty.length = 0 then none
      else some (String.mk ty, s.length - (s3.length - ty.length))
  | [] => none

/-- `parsePhpDocblock`: lines are processed in order; every matching
param annotation overwrites the stored type for its parameter name,
while the first return annotation in the block is kept. -/
def parsePhpDocblock (docblock : List Char) : PhpDocInfo :=
  if docblock.length = 0 then ⟨JsMap.empty, ""⟩
  else
    (splitDocLines docblock).foldl (fun acc line =>
      let acc := match scanFirst paramTagStep line with
        | some (nm, ty) => { acc with params := acc.params.set nm ty }
        | none => acc
      match scanFirst returnTagStep line with
      | some r => if acc.returns = "" then { acc with returns := r } else acc
      | none => acc) ⟨JsMap.empty, ""⟩

/-- The mutable scanning state of `splitPhpParameters`. -/
structure ParamSplitState where
  parts : List (List Char)
  current : List Char
  depthParen : Nat
  depthBracket : Nat
  depthBrace : Nat
  inSingle : Bool
  inDouble : Bool
  escape : Bool
deriving Repr

/-- One loop iteration of `splitPhpParameters` (a faithful port of the
JS `for` body, with `current` kept reversed for efficiency). -/
def splitPhpParametersChar (st : ParamSplitState) (ch : Char) : ParamSplitState :=
  if st.inSingle || st.inDouble then
    let st := { st with current := ch :: st.current }
    if st.escape then { st with escape := false }
    else if ch = chBackslash then { st with escape := true }
    else
      let st := if st.inSingle && ch = chSQuote then { st with inSingle := false } else st
      if st.inDouble && ch = chDQuote then { st with inDouble := false } else st
  else if ch = chSQuote then { st with inSingle := true, current := ch :: st.current }
  else if ch = chDQuote then { st with inDouble := true, current := ch :: st.current }
  else
    let st :=
      if ch = '(' then { st with depthParen := st.depthParen + 1 }
      else if ch = ')' then { st with depthParen := st.depthParen - 1 }
      else if ch = '[' then { st with depthBracket := st.depthBracket + 1 }
      else if ch = ']' then { st with depthBracket := st.depthBracket - 1 }
      else if ch = chLBrace then { st with depthBrace := st.depthBrace + 1 }
      else if ch = chRBrace then { st with depthBrace := st.depthBrace - 1 }
      else st
    if ch = ',' && st.depthParen = 0 && st.depthBracket = 0 && st.depthBrace = 0 then
      let trimmed := jsTrimList st.current.reverse
      { st with
        parts := if trimmed.length ≠ 0 then st.parts ++ [trimmed] else st.parts,
        current := [] }
    else { st with current := ch :: st.current }

/-- `splitPhpParameters(paramList)`: split on top-level commas only. -/
def splitPhpParameters (paramList : List Char) : List (List Char) :=
  let st := paramList.foldl splitPhpParametersChar ⟨[], [], 0, 0, 0, false, false, false⟩
  let trimmed := jsTrimList st.current.reverse
  if trimmed.length ≠ 0 then st.parts ++ [trimmed] else st.parts

/-- A parsed parameter descriptor. -/
structure PhpParam where
  name : String
  type : String
  variadic : Bool
  raw : String
deriving DecidableEq, Repr

/-- First match of `/(\$[A-Za-z_\x80-\xff][\w\x80-\xff]*)/`: the
parameter name (with `$`) and its index. -/
def dollarNameStep : RegexStep (String × Nat) := fun _ s off =>
  match s with
  | c :: s1 =>
    if c = chDollar then
      match takeIdentTok s1 with
      | some (nm, s2) =>
        some ((String.mk (chDollar :: nm), off), s.length - s2.length)
      | none => none
    else none
  | [] => none

/-- `replace(/\.\.\./g, '')`: remove every occurrence of `...`
(left-to-right, non-overlapping). -/
def removeAllSubAux (pat : List Char) : Nat → List Char → List Char
  | 0, s => s
  | fuel + 1, s =>
    match s with
    | [] => []
    | c :: rest =>
      if pat.length ≠ 0 ∧ pat.isPrefixOf s then
        removeAllSubAux pat fuel (s.drop pat.length)
      else c :: removeAllSubAux pat fuel rest

def removeAllSub (pat s : List Char) : List Char :=
  removeAllSubAux pat (s.length + 1) s

/-- `replace(/\s*&\s*/g, ' ')`: each whitespace-wrapped ampersand run
becomes a single space. -/
def replaceAmpRunsAux : Nat → List Char → List Char
  | 0, s => s
  | _ + 1, [] => []
  | fuel + 1, c :: rest =>
    let s := c :: rest
    let w1 := s.takeWhile isJsSpaceChar
    match s.drop w1.length with
    | a :: r2 =>
      if a = '&' then
        let w2 := r2.takeWhile isJsSpaceChar
        ' ' :: replaceAmpRunsAux fuel (r2.drop w2.length)
      else c :: replaceAmpRunsAux fuel rest
    | [] => c :: replaceAmpRunsAux fuel rest

def replaceAmpRuns (s : List Char) : List Char :=
  replaceAmpRunsAux (s.length + 1) s

/-- `parsePhpParameter(paramText, docParams)`. -/
def parsePhpParameter (paramText : List Char) (docParams : JsMap String String) :
    Option PhpParam :=
  let t := jsTrimList paramText
  if t.length = 0 then none
  else
    match scanFirst dollarNameStep t with
    | none => none
    | some (name, idx) =>
      let before := jsTrimList (t.take idx)
      let hasVariadic := containsSubList "...".toList before
      let cleanBefore :=
        jsTrimList (replaceAmpRuns (removeAllSub "...".toList before))
      let typeText := if cleanBefore.length ≠ 0 then firstWsToken cleanBefore else []
      let docType := (docParams.get name).getD ""
      let ty :=
        if typeText.length ≠ 0 then String.mk typeText
        else if docType ≠ "" then docType
        else "mixed"
      some ⟨name, ty, hasVariadic, String.mk t⟩

/-- The declaration-header match of
`\bfunction\s+&?\s*([A-Za-z_\x80-\xff][\w\x80-\xff]*)\s*\(([\s\S]*?)\)\s*(?::\s*([\\A-Za-z_\x80-\xff][\\\w\x80-\xff|?]+))?`:
name, raw parameter list (the lazy group reaches the first `)`), and
return type hint (empty when the optional group does not match). -/
def funcSigStep : RegexStep (String × List Char × String) := fun prev s _ =>
  if !atWordBoundary prev then none else
  match (eatLit "function".toList s).bind eatWs1 with
  | none => none
  | some s1 =>
    let s2 := match s1 with
      | c :: rest => if c = '&' then rest else s1
      | [] => s1
    let s3 := eatWs s2
    match takeIdentTok s3 with
    | none => none
    | some (name, s4) =>
      match eatWs s4 with
      | c :: s5 =>
        if c ≠ '(' then none else
        let ps := s5.takeWhile (fun x => x ≠ ')')
        match s5.drop ps.length with
        | _ :: s6 =>
          let s7 := eatWs s6
          let hint : List Char :=
            match s7 with
            | h :: s8 =>
              if h = ':' then
                match eatWs s8 with
                | t :: s9 =>
                  if isBsIdentStartChar t then
                    let tail := s9.takeWhile
                      (fun x => isBsIdentChar x || x = '|' || x = '?')
                    if tail.length = 0 then [] else t :: tail
                  else []
                | [] => []
              else []
            | [] => []
          some ((String.mk name, ps, jsTrim (String.mk hint)), s.length - s6.length)
        | [] => none
      | [] => none

/-- The `${p.type} ${p.variadic ? '...' : ''}${p.name}` display label,
whitespace-collapsed and trimmed. -/
def phpParamLabel (p : PhpParam) : String :=
  String.mk (jsTrimList (collapseWs
    (p.type.toList ++ [' '] ++ (if p.variadic then "...".toList else []) ++
      p.name.toList)))

/-- `extractPhpFunctionSignatureNearOffset(text, nameIndex)`: find the
declaration header in a bounded window around the name, parse its
parameter list, merge declared hints with docblock annotations. -/
def extractPhpFunctionSignatureNearOffset (text : List Char) (nameIndex : Nat) :
    Option PhpSignature :=
  let sliceStart := nameIndex - 800
  let sliceEnd := min text.length (nameIndex + 800)
  let window := (text.take sliceEnd).drop sliceStart
  let localIndex := nameIndex - sliceStart
  let head := window.take (localIndex + 200)
  match scanFirst funcSigStep head with
  | none => none
  | some (fnName, paramList, returnTypeHint) =>
    let docblock := findPhpDocblockBeforeOffset text nameIndex
    let doc := parsePhpDocblock docblock
    let params := (splitPhpParameters paramList).filterMap
      (fun p => parsePhpParameter p doc.params)
    let returnType :=
      if returnTypeHint ≠ "" then returnTypeHint
      else if doc.returns ≠ "" then doc.returns
      else "mixed"
    let label :=
      fnName ++ "(" ++ String.intercalate ", " (params.map phpParamLabel) ++
        "): " ++ returnType
    some ⟨label,
          if docblock.length ≠ 0 then some (String.mk docblock) else none,
          params.map phpParamLabel⟩

/-- A recorded class body span (`classRanges` entries). -/
structure ClassRange where
  name : String
  start : Nat
  stop : Nat
deriving DecidableEq, Repr

def phpKindOfClassKeyword (kw : String) : SymbolKind :=
  if kw = "interface" then .interface
  else if kw = "enum" then .enum
  else .classKind

/-- `extractPhpSymbolsFromDocument(document)`: the full extraction pass
over one file (classes with their members, then free functions, global
constants and `define` calls outside every recorded class body span;
a class declaration whose body brace is missing or unbalanced records
no range and contributes no symbols of its own). -/
def extractPhpSymbolsFromDocument (doc : Document) : List PhpSymbol :=
  let text := doc.text.toList
  let ns := getPhpNamespace text
  let classMatches := scanAll classDeclStep text
  let classStep := fun (acc : List ClassRange × List PhpSymbol) (cm : ClassDeclMatch) =>
    let (classRanges, symbols) := acc
    match indexOfCharFrom text chLBrace cm.matchIndex with
    | none => acc
    | some braceStart =>
      match findMatchingBrace text braceStart with
      | none => acc
      | some braceEnd =>
        let className := cm.name
        let classLoc : Location := ⟨doc.uri, positionAt text cm.nameIndex⟩
        let classFqn := if ns ≠ "" then ns ++ "\\" ++ className else className
        let kind := phpKindOfClassKeyword cm.keyword
        let classRanges := classRanges ++ [⟨className, braceStart, braceEnd⟩]
        let header := (text.take braceStart).drop cm.matchIndex
        let useAliases := parsePhpUseAliases text
        let classExt := parsePhpClassExtendsImplements header
        let extendsFqns := classExt.extendsTargets.map
          (fun t => resolvePhpTypeTokenToFqn t ns useAliases)
        let implementsFqns := classExt.implementsTargets.map
          (fun t => resolvePhpTypeTokenToFqn t ns useAliases)
        let classInfo : ClassInfo :=
          ⟨classFqn, className, kind, doc.uri, "", extendsFqns, implementsFqns⟩
        let symbols := symbols ++ [⟨className, classLoc, some kind, none, some classInfo⟩]
        let symbols :=
          if ns ≠ "" then
            symbols ++ [⟨classFqn, classLoc, some kind, none, some classInfo⟩]
          else symbols
        let classBody := (text.take (braceEnd + 1)).drop braceStart
        let symbols := (scanAll funcDeclStep classBody).foldl (fun symbols m =>
          let methodIndex := braceStart + m.nameIndex
          let methodLoc : Location := ⟨doc.uri, positionAt text methodIndex⟩
          let signature := extractPhpFunctionSignatureNearOffset text methodIndex
          let symbols := symbols ++
            [⟨className ++ "::" ++ m.name, methodLoc, some .method, signature,
              some { containerName := className }⟩]
          if ns ≠ "" then
            symbols ++
              [⟨classFqn ++ "::" ++ m.name, methodLoc, some .method, signature,
                some { containerName := classFqn }⟩]
          else symbols) symbols
        let symbols := (scanAll propDeclStep classBody).foldl (fun symbols pm =>
          let propLoc : Location := ⟨doc.uri, positionAt text (braceStart + pm.2)⟩
          let symbols := symbols ++
            [⟨className ++ "->$" ++ pm.1, propLoc, some .property, none,
              some { containerName := className }⟩,
             ⟨className ++ "->" ++ pm.1, propLoc, some .property, none,
              some { containerName := className }⟩]
          if ns ≠ "" then
            symbols ++
              [⟨classFqn ++ "->$" ++ pm.1, propLoc, some .property, none,
                some { containerName := classFqn }⟩,
               ⟨classFqn ++ "->" ++ pm.1, propLoc, some .property, none,
                some { containerName := classFqn }⟩]
          else symbols) symbols
        let symbols := (scanAll constDeclStep classBody).foldl (fun symbols km =>
          let constLoc : Location := ⟨doc.uri, positionAt text (braceStart + km.2)⟩
          let symbols := symbols ++
            [⟨className ++ "::" ++ km.1, constLoc, some .constant, none,
              some { containerName := className }⟩]
          if ns ≠ "" then
            symbols ++
              [⟨classFqn ++ "::" ++ km.1, constLoc, some .constant, none,
                some { containerName := classFqn }⟩]
          else symbols) symbols
        (classRanges, symbols)
  let (classRanges, classSymbols) := classMatches.foldl classStep ([], [])
  let inClassRange := fun (i : Nat) =>
    classRanges.any (fun r => decide (r.start ≤ i) && decide (i ≤ r.stop))
  let fnSymbols :=
    ((scanAll funcDeclStep text).filter (fun m => !inClassRange m.matchIndex)).foldl
      (fun symbols m =>
        let fnLoc : Location := ⟨doc.uri, positionAt text m.nameIndex⟩
        let signature := extractPhpFunctionSignatureNearOffset text m.nameIndex
        let symbols := symbols ++ [⟨m.name, fnLoc, some .function, signature, none⟩]
        if ns ≠ "" then
          symbols ++ [⟨ns ++ "\\" ++ m.name, fnLoc, some .function, signature, none⟩]
        else symbols) []
  let gcSymbols :=
    ((scanAll globalConstStep text).filter (fun km => !inClassRange km.matchIndex)).foldl
      (fun symbols km =>
        let constLoc : Location := ⟨doc.uri, positionAt text km.nameIndex⟩
        let symbols := symbols ++ [⟨km.name, constLoc, some .constant, none, none⟩]
        if ns ≠ "" then
          symbols ++ [⟨ns ++ "\\" ++ km.name, constLoc, some .constant, none, none⟩]
        else symbols) []
  let defSymbols := (scanAll defineStep text).foldl
    (fun symbols dm =>
      let constLoc : Location := ⟨doc.uri, positionAt text dm.2⟩
      let symbols := symbols ++ [⟨dm.1, constLoc, some .constant, none, none⟩]
      if ns ≠ "" then
        symbols ++ [⟨ns ++ "\\" ++ dm.1, constLoc, some .constant, none, none⟩]
      else symbols) []
  classSymbols ++ fnSymbols ++ gcSymbols ++ defSymbols

/-- The brace resolution performed for one class declaration match: the
offset of the matching close brace of its body, `none` when no open
brace follows the match or `findMatchingBrace` never returns to depth
zero (missing or unbalanced body brace). -/
def braceEndForClassMatch (text : List Char) (cm : ClassDeclMatch) : Option Nat :=
  match indexOfCharFrom text chLBrace cm.matchIndex with
  | none => none
  | some braceStart => findMatchingBrace text braceStart

/-- The extraction pass with every class contribution removed: only the
top-level scans (free functions, global constants, `define` calls) over
the whole text, with no class-range exclusion and no class, method,
property or class-constant symbols.  `extractPhpSymbolsFromDocument`
collapses to this exactly when every class declaration match in the
file has a missing or unbalanced body brace. -/
def extractPhpTopLevelOnly (doc : Document) : List PhpSymbol :=
  let text := doc.text.toList
  let ns := getPhpNamespace text
  let fnSymbols := (scanAll funcDeclStep text).foldl
    (fun symbols m =>
      let fnLoc : Location := ⟨doc.uri, positionAt text m.nameIndex⟩
      let signature := extractPhpFunctionSignatureNearOffset text m.nameIndex
      let symbols := symbols ++ [⟨m.name, fnLoc, some .function, signature, none⟩]
      if ns ≠ "" then
        symbols ++ [⟨ns ++ "\\" ++ m.name, fnLoc, some .function, signature, none⟩]
      else symbols) []
  let gcSymbols := (scanAll globalConstStep text).foldl
    (fun symbols km =>
      let constLoc : Location := ⟨doc.uri, positionAt text km.nameIndex⟩
      let symbols := symbols ++ [⟨km.name, constLoc, some .constant, none, none⟩]
      if ns ≠ "" then
        symbols ++ [⟨ns ++ "\\" ++ km.name, constLoc, some .constant, none, none⟩]
      else symbols) []
  let defSymbols := (scanAll defineStep text).foldl
    (fun symbols dm =>
      let constLoc : Location := ⟨doc.uri, positionAt text dm.2⟩
      let symbols := symbols ++ [⟨dm.1, constLoc, some .constant, none, none⟩]
      if ns ≠ "" then
        symbols ++ [⟨ns ++ "\\" ++ dm.1, constLoc, some .constant, none, none⟩]
      else symbols) []
  fnSymbols ++ gcSymbols ++ defSymbols

/-- `rebuildPhpClassFqnMaps()`: the short-name → FQN list table rebuilt
from scratch out of `phpWorkspaceClassInfoByFqn`, in its iteration
order, skipping entries with an empty short name and deduplicating. -/
def rebuildPhpClassFqnMaps (st : IndexState) : IndexState :=
  let m := st.classInfoByFqn.entries.foldl (fun acc e =>
    let fqn := e.1
    let info := e.2
    if info.shortName = "" then acc
    else
      let list := (acc.get info.shortName).getD []
      let list := if fqn ∈ list then list else list ++ [fqn]
      acc.set info.shortName list) JsMap.empty
  { st with classFqnsByShortName := m }

/-- The per-key body of the retraction loop in `deletePhpIndexForUri`:
filter this file's entries out of the location list, the symbol info
list and the signature list for one key (all skipped when the key is
absent from the main index, exactly as the `continue` does). -/
def deleteKeyForUri (uriKey : String) (st : IndexState) (key : String) :
    IndexState :=
  match st.index.get key with
  | none => st
  | some locs =>
    let filtered := locs.filter (fun loc => loc.uri ≠ uriKey)
    let st :=
      if filtered.length = 0 then { st with index := st.index.delete key }
      else { st with index := st.index.set key filtered }
    let st := match st.symbolInfo.get key with
      | none => st
      | some infoList =>
        let f := infoList.filter (fun (info : SymbolInfoEntry) => info.uriKey ≠ uriKey)
        if f.length = 0 then { st with symbolInfo := st.symbolInfo.delete key }
        else { st with symbolInfo := st.symbolInfo.set key f }
    match st.functionInfoByKey.get key with
    | none => st
    | some sigList =>
      let f := sigList.filter (fun (info : SigEntry) => info.uriKey ≠ uriKey)
      if f.length = 0 then
        { st with functionInfoByKey := st.functionInfoByKey.delete key }
      else { st with functionInfoByKey := st.functionInfoByKey.set key f }

/-- `deletePhpIndexForUri(uri)`: exact retraction of one file.  When the
file has no tracked key set the function returns immediately — without
touching the version counter. -/
def deletePhpIndexForUri (st : IndexState) (uri : String) : IndexState :=
  let uriKey := uri
  match st.keysByUri.get uriKey with
  | none => st
  | some keys =>
    let st := keys.foldl (deleteKeyForUri uriKey) st
    let st := { st with keysByUri := st.keysByUri.delete uriKey }
    let st := { st with classInfoByFqn :=
      ⟨st.classInfoByFqn.entries.filter
        (fun e => !(e.2.uri ≠ "" && e.2.uri = uriKey))⟩ }
    let st := rebuildPhpClassFqnMaps st
    { st with version := st.version + 1 }

/-- One iteration of the insertion loop of `updatePhpIndexForDocument`:
skip empty keys, append the location, record symbol info, signature and
class info, and add the key to the tracked set. -/
def insertPhpSymbol (uriKey : String) (acc : IndexState × List String)
    (s : PhpSymbol) : IndexState × List String :=
  let (st, keys) := acc
  if s.key = "" then (st, keys)
  else
    let keys := if s.key ∈ keys then keys else keys ++ [s.key]
    let current := (st.index.get s.key).getD []
    let st := { st with index := st.index.set s.key (current ++ [s.location]) }
    let st := match s.kind with
      | none => st
      | some kind =>
        let infoList := (st.symbolInfo.get s.key).getD []
        let containerName := match s.classInfo with
          | some ci => if ci.containerName ≠ "" then ci.containerName else ""
          | none => ""
        { st with symbolInfo :=
          st.symbolInfo.set s.key (infoList ++ [⟨uriKey, kind, containerName⟩]) }
    let st := match s.signature with
      | none => st
      | some sig =>
        let sigList := (st.functionInfoByKey.get s.key).getD []
        let newList := sigList ++ [⟨uriKey, sig.label, sig.documentation, sig.parameters⟩]
        { st with functionInfoByKey := st.functionInfoByKey.set s.key newList }
    let st := match s.classInfo with
      | some ci =>
        if ci.fqn ≠ "" then
          { st with classInfoByFqn := st.classInfoByFqn.set ci.fqn ci }
        else st
      | none => st
    (st, keys)

/-- The insertion phase of `updatePhpIndexForDocument` applied to an
already extracted symbol list (the code computes the list once and then
runs this loop). -/
def insertPhpSymbols (st : IndexState) (uriKey : String)
    (symbols : List PhpSymbol) : IndexState :=
  let (st, keys) := symbols.foldl (insertPhpSymbol uriKey) (st, [])
  let st :=
    if keys.length ≠ 0 then { st with keysByUri := st.keysByUri.set uriKey keys }
    else st
  let st := rebuildPhpClassFqnMaps st
  { st with version := st.version + 1 }

/-- `updatePhpIndexForDocument` with the extraction result factored out:
full retraction of the file, then insertion of the given symbols. -/
def updatePhpIndexViaSymbols (st : IndexState) (uriKey : String)
    (symbols : List PhpSymbol) : IndexState :=
  insertPhpSymbols (deletePhpIndexForUri st uriKey) uriKey symbols

/-- `updatePhpIndexForDocument(document)`: no-op on non-PHP documents,
otherwise delete-then-insert of the freshly extracted symbols. -/
def updatePhpIndexForDocument (st : IndexState) (doc : Document) : IndexState :=
  if doc.languageId ≠ "php" then st
  else updatePhpIndexViaSymbols st doc.uri (extractPhpSymbolsFromDocument doc)

/-- The class-constant name test `/^[A-Z_][A-Z0-9_]*$/`. -/
def isConstMemberName (m : String) : Bool :=
  match m.toList with
  | [] => false
  | c :: rest =>
    (isAsciiUpperChar c || c.toNat = 95) &&
      rest.all (fun x => isAsciiUpperChar x || isAsciiDigitChar x || x.toNat = 95)

/-- Ordered set insertion used for the JS `Set` accumulators. -/
def addToSetList (l : List String) (x : String) : List String :=
  if x ∈ l then l else l ++ [x]

/-- Insertion sort on strings, standing in for
`Array.from(set).sort((a, b) => a.localeCompare(b))` (the claims only
depend on membership, which any sort preserves). -/
def insertSorted (x : String) : List String → List String
  | [] => [x]
  | y :: rest => if decide (x ≤ y) then x :: y :: rest else y :: insertSorted x rest

def sortStrings : List String → List String
  | [] => []
  | x :: rest => insertSorted x (sortStrings rest)

/-- The per-key accumulation step of `getPhpMembersForClass`: one index
key against the `Class::` / `Class->` prefixes of the query. -/
def membersScanKey (classKey className : String)
    (acc : List String × List String × List String) (key : String) :
    List String × List String × List String :=
  let (methods, properties, constants) := acc
  let (methods, constants) :=
    if jsStartsWith key (classKey ++ "::") || jsStartsWith key (className ++ "::") then
      let member := String.mk (lastSplitPiece key.toList "::".toList)
      if member ≠ "" then
        if isConstMemberName member then (methods, addToSetList constants member)
        else (addToSetList methods member, constants)
      else (methods, constants)
    else (methods, constants)
  let properties :=
    if jsStartsWith key (classKey ++ "->$") || jsStartsWith key (className ++ "->$") ||
        jsStartsWith key (classKey ++ "->") || jsStartsWith key (className ++ "->") then
      let member :=
        if jsIncludes key "->$" then String.mk (lastSplitPiece key.toList "->$".toList)
        else String.mk (lastSplitPiece key.toList "->".toList)
      if member ≠ "" then addToSetList properties (stripLeadingDollar member)
      else properties
    else properties
  (methods, properties, constants)

/-- The cache-miss computation of `getPhpMembersForClass`. -/
def computePhpMembersForClass (st : IndexState) (classKey : String) : PhpMembers :=
  let className := lastBackslashSegment classKey
  let (methods, properties, constants) :=
    st.index.keys.foldl (membersScanKey classKey className) ([], [], [])
  ⟨sortStrings methods, sortStrings properties, sortStrings constants⟩

/-- `getPhpMembersForClass(classNameOrFqn)`: returns the members record
and the state with the cache updated (the JS function mutates the
module-level cache). -/
def getPhpMembersForClass (st : IndexState) (classNameOrFqn : String) :
    PhpMembers × IndexState :=
  let classKey := stripLeadingBackslashes classNameOrFqn
  if classKey = "" then (⟨[], [], []⟩, st)
  else
    match st.membersCache.get classKey with
    | some cached =>
      if cached.version = st.version then (cached.value, st)
      else
        let value := computePhpMembersForClass st classKey
        (value, { st with membersCache :=
          st.membersCache.set classKey ⟨st.version, value⟩ })
    | none =>
      let value := computePhpMembersForClass st classKey
      (value, { st with membersCache :=
        st.membersCache.set classKey ⟨st.version, value⟩ })

/-- The common tail of the three Laravel route-name patterns:
`\s*\(\s*(['"])([^'"]+)\1` after the leading keyword.  The payload is
the route name together with `match.index + match[0].lastIndexOf(quote) + 1`
(the closing quote is the last character of the match, so that offset is
the end of `match[0]`). -/
def routeTail (s1 : List Char) (off origLen : Nat) :
    Option ((String × Nat) × Nat) :=
  match eatWs s1 with
  | c :: s2 =>
    if c ≠ '(' then none else
    match eatWs s2 with
    | q :: s3 =>
      if q = chSQuote || q = chDQuote then
        let nm := s3.takeWhile (fun x => x ≠ chSQuote && x ≠ chDQuote)
        if nm.length = 0 then none
        else
          match s3.drop nm.length with
          | c2 :: s4 =>
            if c2 = q then
              let consumed := origLen - s4.length
              some ((String.mk nm, off + consumed), consumed)
            else none
          | [] => none
      else none
    | [] => none
  | [] => none

/-- `/\broute\s*\(\s*(['"])([^'"]+)\1/g`. -/
def routeNameStep1 : RegexStep (String × Nat) := fun prev s off =>
  if !atWordBoundary prev then none else
  match eatLit "route".toList s with
  | some s1 => routeTail s1 off s.length
  | none => none

/-- `/\bto_route\s*\(\s*(['"])([^'"]+)\1/g`. -/
def routeNameStep2 : RegexStep (String × Nat) := fun prev s off =>
  if !atWordBoundary prev then none else
  match eatLit "to_route".toList s with
  | some s1 => routeTail s1 off s.length
  | none => none

/-- The third pattern, `->` then `\s*route\s*\(\s*(['"])([^'"]+)\1`,
global, with no word boundary. -/
def routeNameStep3 : RegexStep (String × Nat) := fun _ s off =>
  match eatLit "->".toList s with
  | some s0 =>
    match eatLit "route".toList (eatWs s0) with
    | some s1 => routeTail s1 off s.length
    | none => none
  | none => none

/-- `getLaravelRouteNameAtPosition(document, position)`: try the three
patterns in order on the cursor's line and return the first name whose
hit region contains the cursor column. -/
def getLaravelRouteNameAtPosition (doc : Document) (pos : Position) : String :=
  let line := lineAtText doc.text.toList pos.line
  let offsetInLine := pos.character
  let check := fun (ms : List (String × Nat)) =>
    ms.find? (fun m =>
      decide (m.2 ≤ offsetInLine) && decide (offsetInLine ≤ m.2 + m.1.length))
  match check (scanAll routeNameStep1 line) with
  | some m => m.1
  | none =>
    match check (scanAll routeNameStep2 line) with
    | some m => m.1
    | none =>
      match check (scanAll routeNameStep3 line) with
      | some m => m.1
      | none => ""

/-- Model of the editor's `document.getWordRangeAtPosition(position,
/[\\A-Za-z_\x80-\xff][\\\w\x80-\xff]*/)`: the match on the cursor's
line whose range contains the cursor column. -/
def wordRangeAtPosition (line : List Char) (character : Nat) :
    Option (String × Nat) :=
  let step : RegexStep (String × Nat) := fun _ s off =>
    match takeBsIdentTok s with
    | some (tok, rest) => some ((String.mk tok, off), s.length - rest.length)
    | none => none
  (scanAll step line).find? (fun m =>
    decide (m.2 ≤ character) && decide (character ≤ m.2 + m.1.length))

/-- The syntactic shape of the token under the cursor (the
`{kind, word, classToken, member}` records of the source). -/
inductive PhpReference where
  | staticRef (word classToken member : String)
  | thisRef (word member : String)
  | objectRef (word member : String)
  | plain (word : String)
deriving DecidableEq, Repr

/-- `/([\\A-Za-z_\x80-\xff][\\\w\x80-\xff]*)\s*::\s*([A-Za-z_\x80-\xff][\w\x80-\xff]*)/g`:
payload is (raw class token, member, member start offset). -/
def staticRefStep : RegexStep (String × String × Nat) := fun _ s off =>
  match takeBsIdentTok s with
  | none => none
  | some (cls, s1) =>
    match eatLit "::".toList (eatWs s1) with
    | none => none
    | some s3 =>
      match takeIdentTok (eatWs s3) with
      | some (mem, s5) =>
        let consumed := s.length - s5.length
        some ((String.mk cls, String.mk mem, off + consumed - mem.length), consumed)
      | none => none

/-- `/(\$this|\$[A-Za-z_\x80-\xff][\w\x80-\xff]*)\s*->\s*([A-Za-z_\x80-\xff][\w\x80-\xff]*)/g`:
payload is (receiver with `$`, member, member start offset).  The
alternation is equivalent to a greedy `\$identifier` (when `$this` is a
proper head of a longer identifier, the first alternative fails at
`->` and the second consumes the whole identifier). -/
def objectRefStep : RegexStep (String × String × Nat) := fun _ s off =>
  match s with
  | c :: s1 =>
    if c ≠ chDollar then none else
    match takeIdentTok s1 with
    | none => none
    | some (recv, s2) =>
      match eatLit "->".toList (eatWs s2) with
      | none => none
      | some s4 =>
        match takeIdentTok (eatWs s4) with
        | some (mem, s6) =>
          let consumed := s.length - s6.length
          some ((String.mk (chDollar :: recv), String.mk mem,
                 off + consumed - mem.length), consumed)
        | none => none
  | [] => none

/-- `getPhpReferenceAtPosition(document, position)`. -/
def getPhpReferenceAtPosition (doc : Document) (pos : Position) :
    Option PhpReference :=
  let line := lineAtText doc.text.toList pos.line
  match wordRangeAtPosition line pos.character with
  | none => none
  | some (raw, _) =>
    if raw = "" then none
    else
      let word := stripLeadingBackslashes raw
      let offsetInLine := pos.character
      let staticHit := (scanAll staticRefStep line).find? (fun m =>
        decide (m.2.2 ≤ offsetInLine) &&
          decide (offsetInLine ≤ m.2.2 + m.2.1.length))
      match staticHit with
      | some m =>
        some (.staticRef word (stripLeadingBackslashes m.1) m.2.1)
      | none =>
        let objHit := (scanAll objectRefStep line).find? (fun m =>
          decide (m.2.2 ≤ offsetInLine) &&
            decide (offsetInLine ≤ m.2.2 + m.2.1.length))
        match objHit with
        | some m =>
          if m.1 = "$this" then some (.thisRef word m.2.1)
          else some (.objectRef word m.2.1)
        | none => some (.plain word)

/-- `/\b(class|interface|trait|enum)\s+([A-Za-z_\x80-\xff][\w\x80-\xff]*)\b/g`
(no modifier prefix): the declared name. -/
def classNameOnlyStep : RegexStep String := fun prev s _ =>
  if !atWordBoundary prev then none else
  match eatClassKeyword s with
  | none => none
  | some (_, s2) =>
    match eatWs1 s2 with
    | none => none
    | some s3 =>
      match takeIdentTok s3 with
      | some (name, s4) =>
        if (s4.head?.map isJsWordChar).getD false then none
        else some (String.mk name, s.length - s4.length)
      | none => none

/-- `findEnclosingPhpClassName(document, position)`: the last class-like
declaration name in the text before the cursor. -/
def findEnclosingPhpClassName (doc : Document) (pos : Position) : Option String :=
  let text := doc.text.toList
  let offset := offsetAt text pos
  let head := text.take offset
  match (scanAll classNameOnlyStep head).reverse with
  | last :: _ => some last
  | [] => none

/-- `\b(class|interface|trait|enum)\s+NAME\b` for a fixed name: the
match index. -/
def classDeclForStep (target : List Char) : RegexStep Nat := fun prev s off =>
  if !atWordBoundary prev then none else
  match eatClassKeyword s with
  | none => none
  | some (_, s2) =>
    match eatWs1 s2 with
    | none => none
    | some s3 =>
      match eatLit target s3 with
      | none => none
      | some s4 =>
        if (s4.head?.map isJsWordChar).getD false then none
        else some (off, s.length - s4.length)

/-- `\bfunction\s+&?\s*NAME\s*\(` for a fixed name: the match index. -/
def funcDeclForStep (target : List Char) : RegexStep Nat := fun prev s off =>
  if !atWordBoundary prev then none else
  match (eatLit "function".toList s).bind eatWs1 with
  | none => none
  | some s1 =>
    let s2 := match s1 with
      | c :: rest => if c = '&' then rest else s1
      | [] => s1
    match eatLit target (eatWs s2) with
    | none => none
    | some s4 =>
      match eatWs s4 with
      | c :: s5 => if c = '(' then some (off, s.length - s5.length) else none
      | [] => none

/-- `\b(?:public|protected|private|var)\s+(?:static\s+)?\$NAME\b` for a
fixed name: the match index. -/
def propDeclForStep (target : List Char) : RegexStep Nat := fun prev s off =>
  if !atWordBoundary prev then none else
  let kw :=
    match eatLit "public".toList s with
    | some r => some r
    | none =>
      match eatLit "protected".toList s with
      | some r => some r
      | none =>
        match eatLit "private".toList s with
        | some r => some r
        | none => eatLit "var".toList s
  match kw.bind eatWs1 with
  | none => none
  | some s1 =>
    let s2 := match (eatLit "static".toList s1).bind eatWs1 with
      | some r => r
      | none => s1
    match s2 with
    | c :: s3 =>
      if c = chDollar then
        match eatLit target s3 with
        | some s4 =>
          if (s4.head?.map isJsWordChar).getD false then none
          else some (off, s.length - s4.length)
        | none => none
      else none
    | [] => none

/-- `\bconst\s+NAME\b` for a fixed name: the match index. -/
def constDeclForStep (target : List Char) : RegexStep Nat := fun prev s off =>
  if !atWordBoundary prev then none else
  match (eatLit "const".toList s).bind eatWs1 with
  | none => none
  | some s1 =>
    match eatLit target s1 with
    | none => none
    | some s2 =>
      if (s2.head?.map isJsWordChar).getD false then none
      else some (off, s.length - s2.length)

/-- `findPhpClassMemberRange(text, className)`: the body span
`[braceStart, braceEnd + 1)` of the first matching declaration. -/
def findPhpClassMemberRange (text : List Char) (className : String) :
    Option (Nat × Nat) :=
  match scanFirst (classDeclForStep className.toList) text with
  | none => none
  | some idx =>
    match indexOfCharFrom text chLBrace idx with
    | none => none
    | some braceStart =>
      match findMatchingBrace text braceStart with
      | none => none
      | some braceEnd => some (braceStart, braceEnd + 1)

/-- `resolvePhpClassTokenInDocument(text, classToken)`. -/
def resolvePhpClassTokenInDocument (text : List Char) (classToken : String) :
    String :=
  if classToken = "" || jsIncludes classToken "\\" then classToken
  else
    match (parsePhpUseAliases text).get classToken with
    | some v => if v ≠ "" then v else classToken
    | none => classToken

/-- `findLocalPhpDefinition(document, position, reference)`: same-file
resolution computed from the document text alone (no index argument:
the source function never reads the workspace index). -/
def findLocalPhpDefinition (doc : Document) (pos : Position)
    (ref : PhpReference) : Option Location :=
  let text := doc.text.toList
  let ns := getPhpNamespace text
  let word := match ref with
    | .staticRef w _ _ => w
    | .thisRef w _ => w
    | .objectRef w _ => w
    | .plain w => w
  if word = "" then none
  else
    let wordLast := lastBackslashSegment word
    let sharedTail : Option Location :=
      match scanFirst (classDeclForStep wordLast.toList) text with
      | some i => some ⟨doc.uri, positionAt text i⟩
      | none =>
        match scanFirst (funcDeclForStep wordLast.toList) text with
        | some i => some ⟨doc.uri, positionAt text i⟩
        | none =>
          match scanFirst (constDeclForStep wordLast.toList) text with
          | some i => some ⟨doc.uri, positionAt text i⟩
          | none =>
            let fqnCandidate := if ns ≠ "" then ns ++ "\\" ++ word else word
            let fqnLast := lastBackslashSegment fqnCandidate
            match scanFirst (classDeclForStep fqnLast.toList) text with
            | some i => some ⟨doc.uri, positionAt text i⟩
            | none => none
    match ref with
    | .thisRef _ member =>
      match findEnclosingPhpClassName doc pos with
      | none => none
      | some className =>
        match findPhpClassMemberRange text className with
        | some (rs, re) =>
          let classBody := (text.take re).drop rs
          match scanFirst (funcDeclForStep member.toList) classBody with
          | some i => some ⟨doc.uri, positionAt text (rs + i)⟩
          | none =>
            match scanFirst (propDeclForStep member.toList) classBody with
            | some i => some ⟨doc.uri, positionAt text (rs + i)⟩
            | none =>
              match scanFirst (constDeclForStep member.toList) classBody with
              | some i => some ⟨doc.uri, positionAt text (rs + i)⟩
              | none => none
        | none => none
    | .staticRef _ classToken member =>
      let r := resolvePhpClassTokenInDocument text classToken
      let resolvedClass := if r ≠ "" then r else classToken
      let className := lastBackslashSegment resolvedClass
      if className = "" then none
      else
        let staticHit :=
          match findPhpClassMemberRange text className with
          | some (rs, re) =>
            let classBody := (text.take re).drop rs
            match scanFirst (funcDeclForStep member.toList) classBody with
            | some i => some (⟨doc.uri, positionAt text (rs + i)⟩ : Location)
            | none =>
              match scanFirst (constDeclForStep member.toList) classBody with
              | some i => some (⟨doc.uri, positionAt text (rs + i)⟩ : Location)
              | none => none
          | none => none
        match staticHit with
        | some loc => some loc
        | none => sharedTail
    | _ => sharedTail

/-- `resolvePhpReferenceFromIndex(document, position, reference)`: the
ordered candidate-key lookup against the workspace index; each block
falls through to the plain word candidates when it finds nothing. -/
def resolvePhpReferenceFromIndex (st : IndexState) (doc : Document)
    (pos : Position) (ref : PhpReference) : Option (List Location) :=
  let tryKeys := fun (candidates : List String) =>
    candidates.findSome? (fun key =>
      match st.index.get key with
      | some locs => if locs.length ≠ 0 then some locs else none
      | none => none)
  let plainTail := fun (word : String) =>
    tryKeys [word, lastBackslashSegment word]
  match ref with
  | .staticRef word classToken member =>
    let r := resolvePhpClassTokenInDocument doc.text.toList classToken
    let resolvedClass := if r ≠ "" then r else classToken
    match tryKeys [resolvedClass ++ "::" ++ member,
                   lastBackslashSegment resolvedClass ++ "::" ++ member] with
    | some locs => some locs
    | none => plainTail word
  | .thisRef word member =>
    match findEnclosingPhpClassName doc pos with
    | some className =>
      match tryKeys [className ++ "::" ++ member,
                     className ++ "->$" ++ member,
                     className ++ "->" ++ member,
                     className ++ "::" ++ jsToUpper member] with
      | some locs => some locs
      | none => plainTail word
    | none => plainTail word
  | .objectRef word _ => plainTail word
  | .plain word => plainTail word

/-- The definition provider's result shape: a single `Location` (local
hit) or a `Location[]` (route or index hit). -/
inductive DefinitionResult where
  | single (loc : Location)
  | multiple (locs : List Location)
deriving DecidableEq, Repr

/-- `provideDefinition(document, position)` of the PHP definition
provider: Laravel route names first, then the local-before-global
resolution.  The `await ensure…Index()` calls only decide which state
the fallback reads; here the route index and the workspace index state
are explicit arguments. -/
def providePhpDefinition (routeIndex : JsMap String (List Location))
    (st : IndexState) (doc : Document) (pos : Position) :
    Option DefinitionResult :=
  let routeName := getLaravelRouteNameAtPosition doc pos
  let routeHit : Option DefinitionResult :=
    if routeName ≠ "" then
      match routeIndex.get routeName with
      | some locs => if locs.length ≠ 0 then some (.multiple locs) else none
      | none => none
    else none
  match routeHit with
  | some r => some r
  | none =>
    match getPhpReferenceAtPosition doc pos with
    | none => none
    | some ref =>
      match findLocalPhpDefinition doc pos ref with
      | some loc => some (.single loc)
      | none =>
        match resolvePhpReferenceFromIndex st doc pos ref with
        | some locs => if locs.length ≠ 0 then some (.multiple locs) else none
        | none => none

/-- The `phpKeywords` table. -/
def phpKeywords : List String :=
  ["abstract", "and", "array", "as", "break", "callable", "case", "catch",
   "class", "clone", "const", "continue", "declare", "default", "die", "do",
   "echo", "else", "elseif", "empty", "enddeclare", "endfor", "endforeach",
   "endif", "endswitch", "endwhile", "eval", "exit", "extends", "final",
   "finally", "fn", "for", "foreach", "function", "global", "goto", "if",
   "implements", "include", "include_once", "instanceof", "insteadof",
   "interface", "isset", "list", "match", "namespace", "new", "or", "print",
   "private", "protected", "public", "readonly", "require", "require_once",
   "return", "static", "switch", "throw", "trait", "try", "unset", "use",
   "var", "while", "xor", "yield", "enum"]

/-- One call-site record of the reference index. -/
structure PhpRef where
  key : String
  location : RefLocation
deriving DecidableEq, Repr

def mkPhpRef (uri : String) (text : List Char) (key : String) (idx len : Nat) :
    PhpRef :=
  ⟨key, ⟨uri, positionAt text idx, positionAt text (idx + len)⟩⟩

/-- `staticCallRe`: `([\\A-Za-z_\x80-\xff][\\\w\x80-\xff]*|self|static|parent)\s*::\s*(name)\s*\(`.
The first alternative already matches `self`, `static` and `parent`, so
the class token is simply a greedy backslashed identifier.  Payload:
(raw class token, member, member index). -/
def staticCallStep : RegexStep (String × String × Nat) := fun _ s off =>
  match takeBsIdentTok s with
  | none => none
  | some (cls, s1) =>
    match eatLit "::".toList (eatWs s1) with
    | none => none
    | some s3 =>
      match takeIdentTok (eatWs s3) with
      | none => none
      | some (mem, s5) =>
        match eatWs s5 with
        | c :: s6 =>
          if c = '(' then
            let memEnd := s.length - s5.length
            some ((String.mk cls, String.mk mem, off + memEnd - mem.length),
                  s.length - s6.length)
          else none
        | [] => none

/-- `methodCallRe`: `->` then `\s*(name)\s*\(`.  Payload: (method,
method index). -/
def methodCallStep : RegexStep (String × Nat) := fun _ s off =>
  match eatLit "->".toList s with
  | none => none
  | some s1 =>
    match takeIdentTok (eatWs s1) with
    | none => none
    | some (mem, s3) =>
      match eatWs s3 with
      | c :: s4 =>
        if c = '(' then
          let memEnd := s.length - s3.length
          some ((String.mk mem, off + memEnd - mem.length), s.length - s4.length)
        else none
      | [] => none

/-- `fnCallRe`: `\b(name)\s*\(`.  Payload: (name, match index). -/
def fnCallStep : RegexStep (String × Nat) := fun prev s off =>
  if !atWordBoundary prev then none else
  match takeIdentTok s with
  | none => none
  | some (name, s1) =>
    match eatWs s1 with
    | c :: s2 =>
      if c = '(' then some ((String.mk name, off), s.length - s2.length) else none
    | [] => none

/-- `/(?:function|new)\s+$/.test(before)`: `before` ends with the
keyword followed by at least one whitespace character. -/
def endsWithDeclKeyword (before : List Char) : Bool :=
  let ws := before.reverse.takeWhile isJsSpaceChar
  if ws.length = 0 then false
  else
    let rest := before.take (before.length - ws.length)
    jsEndsWith (String.mk rest) "function" || jsEndsWith (String.mk rest) "new"

/-- The static-call push loop of `extractPhpReferencesFromDocument`
(each match pushes the full-token key and, when the short name is
nonempty, the short-name key; the 5000-entry cap is checked after the
pushes). -/
def staticRefsLoop (uri : String) (text : List Char) :
    List (String × String × Nat) → List PhpRef → List PhpRef
  | [], results => results
  | m :: rest, results =>
    let classToken := stripLeadingBackslashes m.1
    let short := lastBackslashSegment classToken
    let mem := m.2.1
    let memIdx := m.2.2
    let results := results ++
      [mkPhpRef uri text ("static:" ++ classToken ++ "::" ++ mem) memIdx mem.length]
    let results :=
      if short ≠ "" then
        results ++
          [mkPhpRef uri text ("static:" ++ short ++ "::" ++ mem) memIdx mem.length]
      else results
    if 5000 ≤ results.length then results
    else staticRefsLoop uri text rest results

/-- The instance-method push loop. -/
def methodRefsLoop (uri : String) (text : List Char) :
    List (String × Nat) → List PhpRef → List PhpRef
  | [], results => results
  | m :: rest, results =>
    let results := results ++
      [mkPhpRef uri text ("method:" ++ m.1) m.2 m.1.length]
    if 5000 ≤ results.length then results
    else methodRefsLoop uri text rest results

/-- The free-function push loop: a bare `name(` is skipped when the name
is a keyword, when the 20 characters before it end in `function`/`new`
plus whitespace, or when it is directly preceded by `->` or `::`. -/
def fnRefsLoop (uri : String) (text : List Char) :
    List (String × Nat) → List PhpRef → List PhpRef
  | [], results => results
  | m :: rest, results =>
    let name := m.1
    let idx := m.2
    if name ∈ phpKeywords then fnRefsLoop uri text rest results
    else
      let before := (text.take idx).drop (idx - 20)
      if endsWithDeclKeyword before then fnRefsLoop uri text rest results
      else
        let prev2 := (text.take idx).drop (idx - 2)
        if prev2 = "->".toList ∨ prev2 = "::".toList then
          fnRefsLoop uri text rest results
        else
          let results := results ++ [mkPhpRef uri text ("fn:" ++ name) idx name.length]
          if 5000 ≤ results.length then results
          else fnRefsLoop uri text rest results

/-- `extractPhpReferencesFromDocument(document)`: static calls, then
instance-method calls, then bare-name calls. -/
def extractPhpReferencesFromDocument (doc : Document) : List PhpRef :=
  let text := doc.text.toList
  let results := staticRefsLoop doc.uri text (scanAll staticCallStep text) []
  let results := methodRefsLoop doc.uri text (scanAll methodCallStep text) results
  fnRefsLoop doc.uri text (scanAll fnCallStep text) results

/-- The reference index module state: `phpWorkspaceReferenceIndex` and
`phpWorkspaceReferenceIndexVersion` (initially `-1`, hence an integer). -/
structure RefIndexState where
  refIndex : JsMap String (List RefLocation)
  refVersion : Int
deriving DecidableEq, Repr

def initialRefIndexState : RefIndexState := ⟨JsMap.empty, -1⟩

/-- The full-rescan body of `ensurePhpWorkspaceReferenceIndex`: clear,
then bucket every extracted call site of every PHP document. -/
def buildPhpWorkspaceReferenceIndex (files : List Document) :
    JsMap String (List RefLocation) :=
  files.foldl (fun acc doc =>
    if doc.languageId ≠ "php" then acc
    else
      (extractPhpReferencesFromDocument doc).foldl (fun acc r =>
        acc.set r.key ((acc.get r.key).getD [] ++ [r.location])) acc) JsMap.empty

/-- `ensurePhpWorkspaceReferenceIndex()`: no-op when the recorded build
version equals the symbol index version, otherwise a full rebuild that
records the version it was built against.  The single-flight building
token and unreadable-file skipping are elided: execution is
single-threaded here and `files` is the list of documents that opened
successfully. -/
def ensurePhpWorkspaceReferenceIndex (rst : RefIndexState) (symVersion : Nat)
    (files : List Document) : RefIndexState :=
  if rst.refVersion = (symVersion : Int) then rst
  else ⟨buildPhpWorkspaceReferenceIndex files, (symVersion : Int)⟩

/-- One position attempt of `/\)\s*:\s*([^\s]+)\s*$/` on a signature
label: `)` then `:`, then a single non-whitespace token that reaches
the end of the label up to trailing whitespace. -/
def returnLabelAt (label : List Char) (i : Nat) : Option (List Char) :=
  match label.drop i with
  | c :: rest =>
    if c ≠ ')' then none
    else
      match eatWs rest with
      | d :: r2 =>
        if d ≠ ':' then none
        else
          let r3 := eatWs r2
          let tok := r3.takeWhile (fun x => !isJsSpaceChar x)
          if tok.length = 0 then none
          else if (r3.drop tok.length).all isJsSpaceChar then some tok
          else none
      | [] => none
  | [] => none

def parseReturnFromLabel (label : List Char) : Option (List Char) :=
  (List.range label.length).findSome? (returnLabelAt label)

/-- Full-string tests used by the expression classifier. -/
def isAllDigits (s : List Char) : Bool := s.length ≠ 0 && s.all isAsciiDigitChar

def isFloatLiteral (s : List Char) : Bool :=
  match splitOnChar '.' s with
  | [a, b] => isAllDigits a && isAllDigits b
  | _ => false

/-- `/^\[.*\]$/` (the dot does not match newlines). -/
def isBracketArrayLiteral (s : List Char) : Bool :=
  match s with
  | c :: rest =>
    c = '[' && rest.length ≠ 0 &&
      (match rest.reverse with
       | l :: midRev => l = ']' && midRev.all (fun x => x ≠ '\n' && x ≠ '\r')
       | [] => false)
  | [] => false

/-- `inferPhpTypeFromExpression(expr, namespace, useAliases,
existingVarTypes)`; the signature table stands for the
`phpWorkspaceFunctionInfoByKey` global it reads. -/
def inferPhpTypeFromExpression (fnInfo : JsMap String (List SigEntry))
    (expr : List Char) (ns : String) (uses : JsMap String String)
    (existing : JsMap String String) : String :=
  let t := jsTrimList expr
  if t.length = 0 then ""
  else
    let newHit : Option String :=
      if jsStartsWithList "new ".toList t then
        match (eatLit "new".toList t).bind eatWs1 with
        | some s1 =>
          match takeBsIdentTok s1 with
          | some (tok, _) => some (resolvePhpTypeTokenToFqn (String.mk tok) ns uses)
          | none => none
        | none => none
      else none
    match newHit with
    | some r => r
    | none =>
      if isBracketArrayLiteral t ||
          (match (eatLitCI "array".toList t).map eatWs with
           | some (c :: _) => c = '('
           | _ => false) then "array"
      else if jsToLowerList t = "true".toList || jsToLowerList t = "false".toList then
        "bool"
      else if jsToLowerList t = "null".toList then "null"
      else if isAllDigits t then "int"
      else if isFloatLiteral t then "float"
      else if (match t with
               | c :: _ :: _ => (c = chSQuote && t.getLast? = some chSQuote) ||
                   (c = chDQuote && t.getLast? = some chDQuote)
               | [c] => (c = chSQuote) || (c = chDQuote)
               | [] => false) then "string"
      else if (match (eatLit "function".toList t).map eatWs with
               | some (c :: _) => c = '('
               | _ => false) ||
              (match (eatLit "fn".toList t).map eatWs with
               | some (c :: _) => c = '('
               | _ => false) then "Closure"
      else
        let varHit : Option String :=
          match t with
          | c :: s1 =>
            if c = chDollar then
              match takeIdentTok s1 with
              | some (nm, []) =>
                match existing.get (String.mk (chDollar :: nm)) with
                | some v => if v ≠ "" then some v else none
                | none => none
              | _ => none
            else none
          | [] => none
        match varHit with
        | some r => r
        | none =>
          let staticHit : Option String :=
            match takeBsIdentTok t with
            | some (cls, s1) =>
              match eatLit "::".toList (eatWs s1) with
              | some s2 =>
                match takeIdentTok (eatWs s2) with
                | some (mem, s3) =>
                  match eatWs s3 with
                  | c :: _ =>
                    if c = '(' then
                      let resolvedClass :=
                        resolvePhpTypeTokenToFqn (String.mk cls) ns uses
                      let classShort := lastBackslashSegment resolvedClass
                      let keys := [resolvedClass ++ "::" ++ String.mk mem,
                                   classShort ++ "::" ++ String.mk mem]
                      keys.findSome? (fun key =>
                        match fnInfo.get key with
                        | some (sig :: _) =>
                          match parseReturnFromLabel sig.label.toList with
                          | some ret =>
                            some (resolvePhpTypeTokenToFqn (String.mk ret) ns uses)
                          | none => none
                        | _ => none)
                    else none
                  | [] => none
                | none => none
              | none => none
            | none => none
          match staticHit with
          | some r => r
          | none =>
            let fnHit : Option String :=
              match takeIdentTok t with
              | some (name, s1) =>
                match eatWs s1 with
                | c :: _ =>
                  if c = '(' then
                    let keys := (if ns ≠ "" then [ns ++ "\\" ++ String.mk name]
                                 else []) ++ [String.mk name]
                    keys.findSome? (fun key =>
                      match fnInfo.get key with
                      | some (sig :: _) =>
                        match parseReturnFromLabel sig.label.toList with
                        | some ret =>
                          some (resolvePhpTypeTokenToFqn (String.mk ret) ns uses)
                        | none => none
                      | _ => none)
                  else none
                | [] => none
              | none => none
            match fnHit with
            | some r => r
            | none => ""

/-- The docblock-annotation matches of
`/\/\*\*[\s\S]*?\*\/\s*\$([A-Za-z_\x80-\xff][\w\x80-\xff]*)/g`: the lazy
group extends to successive occurrences of the comment closer until one
is followed by `\s*$name`.  Payload: (`$name`, match index). -/
def docVarTryFrom (sLen off : Nat) : Nat → List Char → Option ((String × Nat) × Nat)
  | 0, _ => none
  | fuel + 1, r =>
    match indexOfSub r "*/".toList with
    | none => none
    | some i =>
      let after := r.drop (i + 2)
      match eatWs after with
      | c :: s3 =>
        if c = chDollar then
          match takeIdentTok s3 with
          | some (nm, s4) =>
            some ((String.mk (chDollar :: nm), off), sLen - s4.length)
          | none => docVarTryFrom sLen off fuel (r.drop (i + 1))
        else docVarTryFrom sLen off fuel (r.drop (i + 1))
      | [] => none

def docVarStep : RegexStep (String × Nat) := fun _ s off =>
  match eatLit "/**".toList s with
  | none => none
  | some s1 => docVarTryFrom s.length off (s1.length + 1) s1

/-- A match of `/(\$[A-Za-z_\x80-\xff][\w\x80-\xff]*)\s*=\s*([^;]+);/g`:
(`$name`, raw right-hand side up to the semicolon). -/
def assignStep : RegexStep (String × List Char) := fun _ s off =>
  match s with
  | c :: s1 =>
    if c ≠ chDollar then none
    else
      match takeIdentTok s1 with
      | none => none
      | some (nm, s2) =>
        match eatWs s2 with
        | e :: s3 =>
          if e ≠ '=' then none
          else
            let rhsAll := s3.takeWhile (fun x => x ≠ ';')
            if rhsAll.length = 0 then none
            else
              match s3.drop rhsAll.length with
              | _ :: s5 =>
                some ((String.mk (chDollar :: nm), rhsAll), s.length - s5.length)
              | [] => none
        | [] => none
  | [] => none

/-- `inferPhpVariableTypes(document, position)`: the docblock loop runs
first over the bounded backward window; the assignment loop runs second
and overwrites the map entry whenever the right-hand side classifies. -/
def inferPhpVariableTypes (fnInfo : JsMap String (List SigEntry))
    (doc : Document) (pos : Position) : JsMap String String :=
  let fullText := doc.text.toList
  let offset := offsetAt fullText pos
  let startOffset := offset - 12000
  let text := (fullText.take offset).drop startOffset
  let ns := getPhpNamespace fullText
  let uses := parsePhpUseAliases fullText
  let map := (scanAll docVarStep text).foldl (fun map m =>
    let docblock := findPhpDocblockBeforeOffset text (m.2 + 3)
    let parsed := parsePhpDocblock docblock
    let name := m.1
    let ty := match parsed.params.get name with
      | some v => if v ≠ "" then v else parsed.returns
      | none => parsed.returns
    if ty ≠ "" then map.set name (resolvePhpTypeTokenToFqn ty ns uses)
    else map) JsMap.empty
  (scanAll assignStep text).foldl (fun map m =>
    let rhs := jsTrimList m.2
    let inferred := inferPhpTypeFromExpression fnInfo rhs ns uses map
    if inferred ≠ "" then map.set m.1 inferred else map) map

/-- Invariant: every location for `uri` stored in the main index lies
under a key tracked in the per-file key set of `uri` (this is what the
retraction protocol maintains, and what makes exact retraction
possible). -/
def UriTracked (st : IndexState) (uri : String) : Prop :=
  ∀ k locs loc, st.index.get k = some locs → loc ∈ locs → loc.uri = uri →
    ∃ ks, st.keysByUri.get uri = some ks ∧ k ∈ ks

/-- Invariant: no key maps to an empty location list (a key whose list
becomes empty is removed from the index entirely). -/
def NoEmptyLocLists (st : IndexState) : Prop := ∀ k, st.index.get k ≠ some []

/-- No location of `uri` anywhere in the index. -/
def NoLocsForUri (st : IndexState) (uri : String) : Prop :=
  ∀ k locs loc, st.index.get k = some locs → loc ∈ locs → loc.uri ≠ uri

/-- The (nonempty) keys of an extracted symbol list — the key set the
file contributes. -/
def symbolKeysOf (syms : List PhpSymbol) : List String :=
  (syms.filter (fun s => s.key ≠ "")).map (·.key)

/-- The locations a symbol list inserts under a given key. -/
def insLocsFor (syms : List PhpSymbol) (k : String) : List Location :=
  if k = "" then [] else (syms.filter (fun s => s.key = k)).map (·.location)

/-- Retraction of one file from one key's location-list entry. -/
def cleanLocsForUri (uri : String) : Option (List Location) → Option (List Location)
  | none => none
  | some locs =>
    let f := locs.filter (fun loc => loc.uri ≠ uri)
    if f.length = 0 then none else some f

/-- The members cache holds no entry for this key stamped with the
current version (so `getPhpMembersForClass` recomputes). -/
def membersCacheFresh (st : IndexState) (ck : String) : Prop :=
  ∀ e, st.membersCache.get ck = some e → e.version ≠ st.version

/-- Some index key matches the `Class::` prefixes of the query (by full
query key or by its short name) and its last `::` segment is `m`. -/
def hasStaticMemberKey (st : IndexState) (classKey m : String) : Prop :=
  ∃ key ∈ st.index.keys,
    (jsStartsWith key (classKey ++ "::") ||
      jsStartsWith key (lastBackslashSegment classKey ++ "::")) = true ∧
    String.mk (lastSplitPiece key.toList "::".toList) = m ∧ m ≠ ""

/-- Specification-side reading of the docblock parameter rule: the type
of the LAST line whose first parameter annotation names this parameter. -/
def lastParamAnn : List (List Char) → String → Option String
  | [], _ => none
  | l :: rest, name =>
    match lastParamAnn rest name with
    | some t => some t
    | none =>
      match scanFirst paramTagStep l with
      | some (nm, ty) => if nm = name then some ty else none
      | none => none

/-- Specification-side reading of the return rule: the FIRST line with a
return annotation wins. -/
def firstReturnAnn : List (List Char) → String
  | [] => ""
  | l :: rest =>
    match scanFirst returnTagStep l with
    | some r => r
    | none => firstReturnAnn rest

/-- The line list `parsePhpDocblock` iterates (empty for the empty
docblock, which returns early). -/
def docLinesOf (d : List Char) : List (List Char) :=
  if d.length = 0 then [] else splitDocLines d

/-- Concrete inputs for the per-claim scenarios and witnesses. -/
def cDocA1 : Document := ⟨"file:///A.php", "php", "class C \x7b public $foo; \x7d"⟩

def cDocA2 : Document := ⟨"file:///A.php", "php", "class C \x7b public $bar; \x7d"⟩

def cS1 : IndexState := updatePhpIndexForDocument initialIndexState cDocA1

def cM1 : PhpMembers × IndexState := getPhpMembersForClass cS1 "C"

def cS3 : IndexState := updatePhpIndexForDocument cM1.2 cDocA2

def cM2 : PhpMembers × IndexState := getPhpMembersForClass cS3 "C"

def cDoc4 : Document := ⟨"file:///G.php", "php",
  "namespace App; class Greeter \x7b public function hello(string $name): string \x7b \x7d \x7d"⟩

def cS4 : IndexState := updatePhpIndexForDocument initialIndexState cDoc4

def cDoc5 : Document := ⟨"file:///U.php", "php", "class A \x7b function m() \x7b"⟩

def cDoc8 : String :=
  "/**\n * @param int $x\n * @param string $x\n * @return int\n * @return string\n */"

def cDoc9 : Document := ⟨"file:///I.php", "php",
  "/** @param string $x */\n$x = [1];\n"⟩

def cPos9 : Position := ⟨2, 0⟩

def cDoc9Block : String := "/** @param string $x */"

def cDoc3 : Document := ⟨"file:///L.php", "php",
  "<?php\nfunction f() \x7b\x7d\nf();\n"⟩

def cPos3 : Position := ⟨2, 0⟩

def cOtherFileState : IndexState :=
  updatePhpIndexViaSymbols initialIndexState "file:///Z.php"
    [⟨"f", ⟨"file:///Z.php", ⟨0, 0⟩⟩, some .function, none, none⟩]

def cDocRefA : Document := ⟨"file:///A.php", "php",
  "<?php\nfunction f() \x7b\x7d\n"⟩

def cDocBOld : Document := ⟨"file:///B.php", "php", "<?php\ng();\nf();\n"⟩

def cDocBNew : Document := ⟨"file:///B.php", "php", "<?php\ng();\nf();\nf();\n"⟩

def cNewCallLoc : RefLocation := ⟨"file:///B.php", ⟨3, 0⟩, ⟨3, 1⟩⟩

def cRefState1 : RefIndexState :=
  ensurePhpWorkspaceReferenceIndex initialRefIndexState 1 [cDocRefA, cDocBOld]

def cRefState2 : RefIndexState :=
  ensurePhpWorkspaceReferenceIndex cRefState1 2 [cDocRefA, cDocBNew]

def cRefState5 : RefIndexState := ⟨JsMap.empty, 5⟩

def cDoc10 : Document := ⟨"file:///K.php", "php",
  "class K \x7b function FOO() \x7b\x7d function bar() \x7b\x7d \x7d"⟩

def cS10 : IndexState := updatePhpIndexForDocument initialIndexState cDoc10

def cSymsX : List PhpSymbol :=
  [⟨"f", ⟨"file:///W.php", ⟨0, 9⟩⟩, some .function, none, none⟩]

def cSymsY : List PhpSymbol :=
  [⟨"g", ⟨"file:///W.php", ⟨0, 9⟩⟩, some .function, none, none⟩]

theorem jsmap_get_empty {α β : Type} [DecidableEq α] (k : α) :
    (JsMap.empty : JsMap α β).get k = none := rfl

theorem jsmap_get_set_self {α β : Type} [DecidableEq α] (m : JsMap α β)
    (k : α) (v : β) : (m.set k v).get k = some v := by
  obtain ⟨entries⟩ := m
  induction entries with
  | nil => simp [JsMap.set, JsMap.setEntries, JsMap.get]
  | cons e rest ih =>
    by_cases h : e.1 = k
    · simp [JsMap.set, JsMap.setEntries, JsMap.get, h]
    · simpa [JsMap.set, JsMap.setEntries, JsMap.get, h] using ih

theorem jsmap_get_set_ne {α β : Type} [DecidableEq α] (m : JsMap α β)
    (k k' : α) (v : β) (h : k' ≠ k) : (m.set k v).get k' = m.get k' := by
  obtain ⟨entries⟩ := m
  induction entries with
  | nil => simp [JsMap.set, JsMap.setEntries, JsMap.get, h, Ne.symm h]
  | cons e rest ih =>
    by_cases he : e.1 = k
    · subst he
      simp [JsMap.set, JsMap.setEntries, JsMap.get, Ne.symm h]
    · by_cases he' : e.1 = k'
      · simp [JsMap.set, JsMap.setEntries, JsMap.get, he, he', h, Ne.symm h]
      · simpa [JsMap.set, JsMap.setEntries, JsMap.get, he, he'] using ih

theorem jsmap_get_delete_self {α β : Type} [DecidableEq α] (m : JsMap α β)
    (k : α) : (m.delete k).get k = none := by
  obtain ⟨entries⟩ := m
  induction entries with
  | nil => simp [JsMap.delete, JsMap.get]
  | cons e rest ih =>
    by_cases h : e.1 = k
    · simpa [JsMap.delete, JsMap.get, h] using ih
    · simp only [JsMap.delete, JsMap.get] at ih ⊢
      simp [h, ih]

theorem jsmap_get_delete_ne {α β : Type} [DecidableEq α] (m : JsMap α β)
    (k k' : α) (h : k' ≠ k) : (m.delete k).get k' = m.get k' := by
  obtain ⟨entries⟩ := m
  induction entries with
  | nil => simp [JsMap.delete, JsMap.get]
  | cons e rest ih =>
    by_cases he : e.1 = k
    · subst he
      simpa [JsMap.delete, JsMap.get, Ne.symm h] using ih
    · by_cases he' : e.1 = k'
      · simp [JsMap.delete, JsMap.get, he, he', h, Ne.symm h]
      · simpa [JsMap.delete, JsMap.get, he, he'] using ih

theorem deleteKeyForUri_untouched (u : String) (st : IndexState) (k : String) :
    (deleteKeyForUri u st k).keysByUri = st.keysByUri ∧
    (deleteKeyForUri u st k).version = st.version ∧
    (deleteKeyForUri u st k).membersCache = st.membersCache ∧
    (deleteKeyForUri u st k).classInfoByFqn = st.classInfoByFqn ∧
    (deleteKeyForUri u st k).classFqnsByShortName = st.classFqnsByShortName := by
  unfold deleteKeyForUri
  refine ⟨?_, ?_, ?_, ?_, ?_⟩ <;> (dsimp only; repeat' split) <;> rfl

theorem deleteKeyForUri_index (u : String) (st : IndexState) (k : String) :
    (deleteKeyForUri u st k).index =
      match st.index.get k with
      | none => st.index
      | some locs =>
        if (locs.filter (fun loc => loc.uri ≠ u)).length = 0 then st.index.delete k
        else st.index.set k (locs.filter (fun loc => loc.uri ≠ u)) := by
  unfold deleteKeyForUri
  dsimp only
  repeat' split
  all_goals rfl

theorem deleteKeyForUri_index_get (u : String) (st : IndexState) (k k' : String) :
    (deleteKeyForUri u st k).index.get k' =
      if k' = k then cleanLocsForUri u (st.index.get k) else st.index.get k' := by
  rw [deleteKeyForUri_index]
  rcases h : st.index.get k with _ | locs
  · by_cases hk : k' = k
    · subst hk
      simp [cleanLocsForUri, h]
    · simp [cleanLocsForUri, hk, h]
  · by_cases hk : k' = k
    · subst hk
      simp only [h, cleanLocsForUri]
      split
      · simp [jsmap_get_delete_self]
      · simp [jsmap_get_set_self]
    · simp only [h, cleanLocsForUri, hk, if_false]
      split
      · exact jsmap_get_delete_ne _ _ _ hk
      · exact jsmap_get_set_ne _ _ _ _ hk

theorem cleanLocsForUri_idem (u : String) (o : Option (List Location)) :
    cleanLocsForUri u (cleanLocsForUri u o) = cleanLocsForUri u o := by
  rcases o with _ | locs
  · rfl
  · unfold cleanLocsForUri
    dsimp only
    split
    · next heq => exact heq.symm
    · next locs' heq =>
      by_cases hc : (locs.filter (fun loc => decide (loc.uri ≠ u))).length = 0
      · rw [if_pos hc] at heq
        cases heq
      · rw [if_neg hc] at heq
        injection heq with h'
        subst h'
        have hff : (locs.filter (fun loc => decide (loc.uri ≠ u))).filter
            (fun loc => decide (loc.uri ≠ u)) =
            locs.filter (fun loc => decide (loc.uri ≠ u)) := by
          simp [List.filter_filter]
        rw [hff, if_neg hc]

theorem foldl_deleteKeyForUri_untouched (u : String) (keys : List String)
    (st : IndexState) :
    (keys.foldl (deleteKeyForUri u) st).keysByUri = st.keysByUri ∧
    (keys.foldl (deleteKeyForUri u) st).version = st.version := by
  induction keys generalizing st with
  | nil => exact ⟨rfl, rfl⟩
  | cons k0 rest ih =>
    simp only [List.foldl_cons]
    obtain ⟨h1, h2⟩ := ih (deleteKeyForUri u st k0)
    obtain ⟨g1, g2, _⟩ := deleteKeyForUri_untouched u st k0
    exact ⟨h1.trans g1, h2.trans g2⟩

theorem foldl_deleteKeyForUri_index_get (u : String) (keys : List String)
    (st : IndexState) (k : String) :
    (keys.foldl (deleteKeyForUri u) st).index.get k =
      if k ∈ keys then cleanLocsForUri u (st.index.get k) else st.index.get k := by
  induction keys generalizing st with
  | nil => simp
  | cons k0 rest ih =>
    simp only [List.foldl_cons]
    rw [ih]
    by_cases hmem : k ∈ rest
    · rw [if_pos hmem, deleteKeyForUri_index_get]
      by_cases hk : k = k0
      · subst hk
        simp [cleanLocsForUri_idem, List.mem_cons]
      · simp [hk, List.mem_cons, hmem]
    · rw [if_neg hmem, deleteKeyForUri_index_get]
      by_cases hk : k = k0
      · subst hk
        simp [List.mem_cons]
      · simp [hk, List.mem_cons, hmem]

theorem rebuildPhpClassFqnMaps_index (st : IndexState) :
    (rebuildPhpClassFqnMaps st).index = st.index := rfl

theorem deletePhpIndexForUri_none (st : IndexState) (u : String)
    (h : st.keysByUri.get u = none) : deletePhpIndexForUri st u = st := by
  unfold deletePhpIndexForUri
  simp [h]

theorem deletePhpIndexForUri_index_get (st : IndexState) (u : String)
    (ks : List String) (k : String) (h : st.keysByUri.get u = some ks) :
    (deletePhpIndexForUri st u).index.get k =
      if k ∈ ks then cleanLocsForUri u (st.index.get k) else st.index.get k := by
  unfold deletePhpIndexForUri
  simp only [h]
  exact foldl_deleteKeyForUri_index_get u ks st k

theorem deletePhpIndexForUri_keysByUri_get_self (st : IndexState) (u : String)
    (ks : List String) (h : st.keysByUri.get u = some ks) :
    (deletePhpIndexForUri st u).keysByUri.get u = none := by
  unfold deletePhpIndexForUri
  simp only [h]
  show ((ks.foldl (deleteKeyForUri u) st).keysByUri.delete u).get u = none
  exact jsmap_get_delete_self _ _

theorem deletePhpIndexForUri_version_some (st : IndexState) (u : String)
    (ks : List String) (h : st.keysByUri.get u = some ks) :
    (deletePhpIndexForUri st u).version = st.version + 1 := by
  unfold deletePhpIndexForUri
  simp only [h]
  show (ks.foldl (deleteKeyForUri u) st).version + 1 = st.version + 1
  rw [(foldl_deleteKeyForUri_untouched u ks st).2]

theorem deletePhpIndexForUri_version_ge (st : IndexState) (u : String) :
    st.version ≤ (deletePhpIndexForUri st u).version := by
  rcases h : st.keysByUri.get u with _ | ks
  · rw [deletePhpIndexForUri_none st u h]
  · rw [deletePhpIndexForUri_version_some st u ks h]
    exact Nat.le_succ _

theorem insertPhpSymbol_untouched (u : String) (acc : IndexState × List String)
    (s : PhpSymbol) :
    (insertPhpSymbol u acc s).1.keysByUri = acc.1.keysByUri ∧
    (insertPhpSymbol u acc s).1.version = acc.1.version := by
  obtain ⟨st, keys⟩ := acc
  unfold insertPhpSymbol
  refine ⟨?_, ?_⟩ <;> (dsimp only; repeat' split) <;> rfl

theorem insertPhpSymbol_index_get (u : String) (st : IndexState)
    (keys : List String) (s : PhpSymbol) (k : String) :
    ((insertPhpSymbol u (st, keys) s).1).index.get k =
      if s.key ≠ "" ∧ k = s.key then
        some ((st.index.get k).getD [] ++ [s.location])
      else st.index.get k := by
  unfold insertPhpSymbol
  dsimp only
  by_cases hk : s.key = ""
  · simp [hk]
  · rw [if_neg hk]
    dsimp only
    by_cases hkk : k = s.key
    · subst hkk
      rw [if_pos ⟨hk, rfl⟩]
      repeat' split
      all_goals simp [jsmap_get_set_self]
    · rw [if_neg (fun h => hkk h.2)]
      repeat' split
      all_goals simp [jsmap_get_set_ne _ _ _ _ hkk]

theorem insLocsFor_nil (k : String) : insLocsFor [] k = [] := by
  simp [insLocsFor]

theorem insLocsFor_cons (s : PhpSymbol) (rest : List PhpSymbol) (k : String) :
    insLocsFor (s :: rest) k =
      if k ≠ "" ∧ s.key = k then s.location :: insLocsFor rest k
      else insLocsFor rest k := by
  by_cases hk : k = ""
  · simp [insLocsFor, hk]
  · by_cases hs : s.key = k
    · simp [insLocsFor, hk, hs]
    · simp [insLocsFor, hk, hs]

theorem foldl_insertPhpSymbol_untouched (u : String) (syms : List PhpSymbol)
    (st : IndexState) (keys : List String) :
    ((syms.foldl (insertPhpSymbol u) (st, keys)).1).keysByUri = st.keysByUri ∧
    ((syms.foldl (insertPhpSymbol u) (st, keys)).1).version = st.version := by
  induction syms generalizing st keys with
  | nil => exact ⟨rfl, rfl⟩
  | cons s rest ih =>
    simp only [List.foldl_cons]
    obtain ⟨h1, h2⟩ :=
      ih (insertPhpSymbol u (st, keys) s).1 (insertPhpSymbol u (st, keys) s).2
    obtain ⟨g1, g2⟩ := insertPhpSymbol_untouched u (st, keys) s
    exact ⟨h1.trans g1, h2.trans g2⟩

theorem foldl_insertPhpSymbol_index_get (u : String) (syms : List PhpSymbol)
    (st : IndexState) (keys : List String) (k : String) :
    ((syms.foldl (insertPhpSymbol u) (st, keys)).1).index.get k =
      if insLocsFor syms k = [] then st.index.get k
      else some ((st.index.get k).getD [] ++ insLocsFor syms k) := by
  induction syms generalizing st keys with
  | nil => simp [insLocsFor_nil]
  | cons s rest ih =>
    simp only [List.foldl_cons]
    rw [ih (insertPhpSymbol u (st, keys) s).1 (insertPhpSymbol u (st, keys) s).2,
        insLocsFor_cons]
    by_cases hs : k ≠ "" ∧ s.key = k
    · have hcond : s.key ≠ "" ∧ k = s.key :=
        ⟨by rw [hs.2]; exact hs.1, hs.2.symm⟩
      rw [if_pos hs,
          show ((insertPhpSymbol u (st, keys) s).1).index.get k =
            some ((st.index.get k).getD [] ++ [s.location]) from by
              rw [insertPhpSymbol_index_get, if_pos hcond]]
      by_cases hrest : insLocsFor rest k = []
      · rw [if_pos hrest, hrest]
        simp
      · rw [if_neg hrest]
        simp [List.append_assoc]
    · have hcond : ¬(s.key ≠ "" ∧ k = s.key) := fun h =>
        hs ⟨by rw [← h.2] at h; exact h.1, h.2.symm⟩
      rw [if_neg hs,
          show ((insertPhpSymbol u (st, keys) s).1).index.get k = st.index.get k
            from by rw [insertPhpSymbol_index_get, if_neg hcond]]

theorem insertPhpSymbol_keys (u : String) (st : IndexState) (keys : List String)
    (s : PhpSymbol) :
    (insertPhpSymbol u (st, keys) s).2 =
      if s.key = "" then keys
      else if s.key ∈ keys then keys else keys ++ [s.key] := by
  unfold insertPhpSymbol
  dsimp only
  by_cases hk : s.key = ""
  · simp [hk]
  · rw [if_neg hk, if_neg hk]

theorem foldl_insertPhpSymbol_keys_mem (u : String) (syms : List PhpSymbol)
    (st : IndexState) (keys : List String) (k : String) :
    k ∈ (syms.foldl (insertPhpSymbol u) (st, keys)).2 ↔
      k ∈ keys ∨ (k ≠ "" ∧ ∃ s ∈ syms, s.key = k) := by
  induction syms generalizing st keys with
  | nil => simp
  | cons s rest ih =>
    simp only [List.foldl_cons]
    rw [show List.foldl (insertPhpSymbol u) (insertPhpSymbol u (st, keys) s) rest =
          List.foldl (insertPhpSymbol u)
            ((insertPhpSymbol u (st, keys) s).1, (insertPhpSymbol u (st, keys) s).2)
            rest from rfl,
        ih, insertPhpSymbol_keys]
    by_cases hk : s.key = "" <;> by_cases hmem : s.key ∈ keys <;>
      simp [hk, hmem, List.mem_cons] <;>
      aesop

theorem insertPhpSymbols_index (st : IndexState) (u : String)
    (syms : List PhpSymbol) :
    (insertPhpSymbols st u syms).index =
      ((syms.foldl (insertPhpSymbol u) (st, [])).1).index := by
  unfold insertPhpSymbols
  dsimp only
  split <;> rfl

theorem insertPhpSymbols_index_get (st : IndexState) (u : String)
    (syms : List PhpSymbol) (k : String) :
    (insertPhpSymbols st u syms).index.get k =
      if insLocsFor syms k = [] then st.index.get k
      else some ((st.index.get k).getD [] ++ insLocsFor syms k) := by
  rw [insertPhpSymbols_index]
  exact foldl_insertPhpSymbol_index_get u syms st [] k

theorem insertPhpSymbols_version (st : IndexState) (u : String)
    (syms : List PhpSymbol) :
    (insertPhpSymbols st u syms).version = st.version + 1 := by
  have h1 : (insertPhpSymbols st u syms).version =
      ((syms.foldl (insertPhpSymbol u) (st, [])).1).version + 1 := by
    unfold insertPhpSymbols
    dsimp only
    split <;> rfl
  rw [h1, (foldl_insertPhpSymbol_untouched u syms st []).2]

theorem insertPhpSymbols_keysByUri_get_self (st : IndexState) (u : String)
    (syms : List PhpSymbol) :
    (insertPhpSymbols st u syms).keysByUri.get u =
      if ((syms.foldl (insertPhpSymbol u) (st, [])).2).length = 0
      then st.keysByUri.get u
      else some ((syms.foldl (insertPhpSymbol u) (st, [])).2) := by
  unfold insertPhpSymbols
  dsimp only
  by_cases h : ((syms.foldl (insertPhpSymbol u) (st, [])).2).length = 0
  · rw [if_pos h, if_neg (by simpa using h)]
    show ((syms.foldl (insertPhpSymbol u) (st, [])).1).keysByUri.get u = _
    rw [(foldl_insertPhpSymbol_untouched u syms st []).1]
  · rw [if_neg h, if_pos (by simpa using h)]
    show (((syms.foldl (insertPhpSymbol u) (st, [])).1).keysByUri.set u
      ((syms.foldl (insertPhpSymbol u) (st, [])).2)).get u = _
    rw [jsmap_get_set_self]

theorem updateViaSymbols_version (st : IndexState) (u : String)
    (syms : List PhpSymbol) :
    st.version < (updatePhpIndexViaSymbols st u syms).version := by
  unfold updatePhpIndexViaSymbols
  rw [insertPhpSymbols_version]
  exact Nat.lt_succ_of_le (deletePhpIndexForUri_version_ge st u)

theorem updatePhpIndexForDocument_version (st : IndexState) (doc : Document)
    (h : doc.languageId = "php") :
    st.version < (updatePhpIndexForDocument st doc).version := by
  unfold updatePhpIndexForDocument
  rw [if_neg (by simp [h])]
  exact updateViaSymbols_version st doc.uri (extractPhpSymbolsFromDocument doc)

theorem deletePhpIndexForUri_noLocs (st : IndexState) (u : String)
    (htr : UriTracked st u) : NoLocsForUri (deletePhpIndexForUri st u) u := by
  intro k locs loc hget hmem huri
  rcases h : st.keysByUri.get u with _ | ks
  · rw [deletePhpIndexForUri_none st u h] at hget
    obtain ⟨ks', hks', _⟩ := htr k locs loc hget hmem huri
    rw [h] at hks'
    cases hks'
  · rw [deletePhpIndexForUri_index_get st u ks k h] at hget
    by_cases hk : k ∈ ks
    · rw [if_pos hk] at hget
      rcases hst : st.index.get k with _ | locs0
      · rw [hst] at hget
        cases hget
      · rw [hst] at hget
        simp only [cleanLocsForUri] at hget
        split at hget
        · cases hget
        · injection hget with he
          subst he
          have hp := List.of_mem_filter hmem
          simp only [decide_eq_true_eq] at hp
          exact hp huri
    · rw [if_neg hk] at hget
      obtain ⟨ks', hks', hkk⟩ := htr k locs loc hget hmem huri
      rw [h] at hks'
      injection hks' with he
      exact hk (he ▸ hkk)

theorem deletePhpIndexForUri_noEmpty (st : IndexState) (u : String)
    (h : NoEmptyLocLists st) : NoEmptyLocLists (deletePhpIndexForUri st u) := by
  intro k
  rcases hks : st.keysByUri.get u with _ | ks
  · rw [deletePhpIndexForUri_none st u hks]
    exact h k
  · rw [deletePhpIndexForUri_index_get st u ks k hks]
    by_cases hk : k ∈ ks
    · rw [if_pos hk]
      rcases hst : st.index.get k with _ | locs
      · simp [cleanLocsForUri]
      · simp only [cleanLocsForUri]
        split
        · simp
        · next hf =>
          intro hc
          injection hc with he
          exact hf (by rw [he]; rfl)
    · rw [if_neg hk]
      exact h k

theorem insertPhpSymbols_noEmpty (st : IndexState) (u : String)
    (syms : List PhpSymbol) (h : NoEmptyLocLists st) :
    NoEmptyLocLists (insertPhpSymbols st u syms) := by
  intro k
  rw [insertPhpSymbols_index_get]
  split
  · exact h k
  · next hne =>
    intro hc
    injection hc with he
    exact hne (List.append_eq_nil.mp he).2

theorem insLocsFor_eq_nil_of_not_mem (syms : List PhpSymbol) (k : String)
    (hk : k ∉ symbolKeysOf syms) : insLocsFor syms k = [] := by
  unfold insLocsFor
  split
  · rfl
  · next hke =>
    have hfil : syms.filter (fun s => decide (s.key = k)) = [] := by
      rw [List.filter_eq_nil]
      intro s hs
      simp only [decide_eq_true_eq]
      intro he
      apply hk
      unfold symbolKeysOf
      exact List.mem_map.mpr
        ⟨s, List.mem_filter.mpr ⟨hs, by simp [he, hke]⟩, he⟩
    simp [hfil]

theorem updateViaSymbols_tracked (st : IndexState) (u : String)
    (syms : List PhpSymbol) (htr : UriTracked st u) :
    UriTracked (updatePhpIndexViaSymbols st u syms) u := by
  intro k locs loc hget hmem huri
  unfold updatePhpIndexViaSymbols at hget ⊢
  rw [insertPhpSymbols_index_get] at hget
  by_cases hins : insLocsFor syms k = []
  · rw [if_pos hins] at hget
    exact absurd huri
      (deletePhpIndexForUri_noLocs st u htr k locs loc hget hmem)
  · have hkeymem :
        k ∈ (syms.foldl (insertPhpSymbol u) (deletePhpIndexForUri st u, [])).2 := by
      rw [foldl_insertPhpSymbol_keys_mem]
      right
      constructor
      · intro hke
        exact hins (by simp [insLocsFor, hke])
      · by_contra hno
        push_neg at hno
        apply hins
        apply insLocsFor_eq_nil_of_not_mem
        intro hmemk
        unfold symbolKeysOf at hmemk
        obtain ⟨s, hsf, hskey⟩ := List.mem_map.mp hmemk
        exact hno s (List.mem_filter.mp hsf).1 hskey
    have hlen :
        ¬((syms.foldl (insertPhpSymbol u) (deletePhpIndexForUri st u, [])).2).length = 0 := by
      intro h0
      rw [List.length_eq_zero] at h0
      rw [h0] at hkeymem
      cases hkeymem
    refine ⟨(syms.foldl (insertPhpSymbol u) (deletePhpIndexForUri st u, [])).2,
      ?_, hkeymem⟩
    rw [insertPhpSymbols_keysByUri_get_self, if_neg hlen]

/-- C1: exact retraction.  Starting from a state where file `uri` is
consistently tracked, after `updateFile(uri, symsX)` then
`updateFile(uri, symsY)` with disjoint (nonempty-)key sets, no key of X
maps to a location in `uri` (and no key maps to an empty location
list), while every key of Y maps to its declaration location. -/
theorem exactRetractionAfterTwoUpdates (st0 : IndexState) (uri : String)
    (symsX symsY : List PhpSymbol)
    (htr : UriTracked st0 uri)
    (hne : NoEmptyLocLists st0)
    (hdisj : ∀ k, k ∈ symbolKeysOf symsX → k ∉ symbolKeysOf symsY) :
    (∀ k, k ∈ symbolKeysOf symsX →
      ∀ locs loc,
        (updatePhpIndexViaSymbols (updatePhpIndexViaSymbols st0 uri symsX)
          uri symsY).index.get k = some locs →
        loc ∈ locs → loc.uri ≠ uri) ∧
    (∀ k,
      (updatePhpIndexViaSymbols (updatePhpIndexViaSymbols st0 uri symsX)
        uri symsY).index.get k ≠ some []) ∧
    (∀ s ∈ symsY, s.key ≠ "" →
      ∃ locs,
        (updatePhpIndexViaSymbols (updatePhpIndexViaSymbols st0 uri symsX)
          uri symsY).index.get s.key = some locs ∧ s.location ∈ locs) := by
  refine ⟨?_, ?_, ?_⟩
  · intro k hkX locs loc hget hmem
    have hins : insLocsFor symsY k = [] :=
      insLocsFor_eq_nil_of_not_mem symsY k (hdisj k hkX)
    rw [show updatePhpIndexViaSymbols (updatePhpIndexViaSymbols st0 uri symsX)
          uri symsY =
        insertPhpSymbols
          (deletePhpIndexForUri (updatePhpIndexViaSymbols st0 uri symsX) uri)
          uri symsY from rfl,
        insertPhpSymbols_index_get, if_pos hins] at hget
    exact deletePhpIndexForUri_noLocs _ uri
      (updateViaSymbols_tracked st0 uri symsX htr) k locs loc hget hmem
  · intro k
    exact insertPhpSymbols_noEmpty _ uri symsY
      (deletePhpIndexForUri_noEmpty _ uri
        (insertPhpSymbols_noEmpty _ uri symsX
          (deletePhpIndexForUri_noEmpty st0 uri hne))) k
  · intro s hs hkey
    rw [show updatePhpIndexViaSymbols (updatePhpIndexViaSymbols st0 uri symsX)
          uri symsY =
        insertPhpSymbols
          (deletePhpIndexForUri (updatePhpIndexViaSymbols st0 uri symsX) uri)
          uri symsY from rfl,
        insertPhpSymbols_index_get]
    have hmem : s.location ∈ insLocsFor symsY s.key := by
      unfold insLocsFor
      rw [if_neg hkey]
      exact List.mem_map.mpr ⟨s, List.mem_filter.mpr ⟨hs, by simp⟩, rfl⟩
    have hins : insLocsFor symsY s.key ≠ [] := by
      intro h0
      rw [h0] at hmem
      cases hmem
    rw [if_neg hins]
    exact ⟨_, rfl, List.mem_append.mpr (Or.inr hmem)⟩

/-- C1 witness: the exact-retraction theorem applied to the empty index,
one file and two concrete one-symbol extraction results. -/
theorem exactRetractionAfterTwoUpdates_witness :
    (∀ k, k ∈ symbolKeysOf cSymsX →
      ∀ locs loc,
        (updatePhpIndexViaSymbols
          (updatePhpIndexViaSymbols initialIndexState "file:///W.php" cSymsX)
          "file:///W.php" cSymsY).index.get k = some locs →
        loc ∈ locs → loc.uri ≠ "file:///W.php") ∧
    (∀ k,
      (updatePhpIndexViaSymbols
        (updatePhpIndexViaSymbols initialIndexState "file:///W.php" cSymsX)
        "file:///W.php" cSymsY).index.get k ≠ some []) ∧
    (∀ s ∈ cSymsY, s.key ≠ "" →
      ∃ locs,
        (updatePhpIndexViaSymbols
          (updatePhpIndexViaSymbols initialIndexState "file:///W.php" cSymsX)
          "file:///W.php" cSymsY).index.get s.key = some locs ∧
        s.location ∈ locs) :=
  exactRetractionAfterTwoUpdates initialIndexState "file:///W.php" cSymsX cSymsY
    (fun k locs loc hget _ _ => absurd hget (by simp [initialIndexState, JsMap.get, JsMap.empty]))
    (fun k => by simp [initialIndexState, JsMap.get, JsMap.empty])
    (fun k hk => by
      simp only [cSymsX, cSymsY, symbolKeysOf] at hk ⊢
      simp at hk
      subst hk
      decide)

/-- C2 counterexample: calling `deleteFile` on a file with no entries in
the index leaves the version counter unchanged (the claim requires a
strict increase there). -/
theorem versionMonotonicity_counterexample :
    ¬(initialIndexState.version <
      (deletePhpIndexForUri initialIndexState "file:///a.php").version) := by
  decide

/-- C2 as amended: the version strictly increases on every `updateFile`
of a PHP document (including no-op content changes) and on every
`deleteFile` of a file with a tracked key set; a `deleteFile` of a file
with no tracked keys returns without bumping the version. -/
theorem versionMonotonicity_amended :
    (∀ (st : IndexState) (doc : Document), doc.languageId = "php" →
      st.version < (updatePhpIndexForDocument st doc).version) ∧
    (∀ (st : IndexState) (uri : String), (st.keysByUri.get uri).isSome →
      st.version < (deletePhpIndexForUri st uri).version) ∧
    (∀ (st : IndexState) (uri : String), st.keysByUri.get uri = none →
      (deletePhpIndexForUri st uri).version = st.version) := by
  refine ⟨updatePhpIndexForDocument_version, ?_, ?_⟩
  · intro st uri hsome
    obtain ⟨ks, hks⟩ := Option.isSome_iff_exists.mp hsome
    rw [deletePhpIndexForUri_version_some st uri ks hks]
    exact Nat.lt_succ_self _
  · intro st uri hnone
    rw [deletePhpIndexForUri_none st uri hnone]

/-- C2 witness: the amended version law at concrete inputs — an update
of a PHP document bumps the version, deleting a tracked file bumps it,
deleting an unknown file leaves it unchanged. -/
theorem versionMonotonicity_amended_witness :
    (initialIndexState.version <
      (updatePhpIndexForDocument initialIndexState cDocA1).version) ∧
    (cS1.version < (deletePhpIndexForUri cS1 "file:///A.php").version) ∧
    ((deletePhpIndexForUri initialIndexState "file:///a.php").version =
      initialIndexState.version) :=
  ⟨versionMonotonicity_amended.1 initialIndexState cDocA1 (by decide),
   versionMonotonicity_amended.2.1 cS1 "file:///A.php" (by decide),
   versionMonotonicity_amended.2.2 initialIndexState "file:///a.php" (by decide)⟩

/-- C4: indexing the `namespace App; class Greeter …` file produces the
four keys `Greeter`, `App\Greeter`, `Greeter::hello`,
`App\Greeter::hello`, and the signature recorded under `Greeter::hello`
has label `hello(string $name): string`, which contains `string $name`
and ends with `: string`. -/
theorem classMethodIndexingScenario :
    (cS4.index.get "Greeter").isSome = true ∧
    (cS4.index.get "App\\Greeter").isSome = true ∧
    (cS4.index.get "Greeter::hello").isSome = true ∧
    (cS4.index.get "App\\Greeter::hello").isSome = true ∧
    ((cS4.functionInfoByKey.get "Greeter::hello").getD []).map (·.label) =
      ["hello(string $name): string"] ∧
    jsIncludes "hello(string $name): string" "string $name" = true ∧
    jsEndsWith "hello(string $name): string" ": string" = true := by
  refine ⟨?_, ?_, ?_, ?_, ?_, ?_, ?_⟩ <;> decide

/-- C5 counterexample: for a class declaration with an unbalanced body
brace, the extractor still contributes a symbol for the method nested
inside it — under the free-function key `m` — contradicting the claim
that nothing nested is indexed under any key. -/
theorem unbalancedBraceSkip_counterexample :
    (extractPhpSymbolsFromDocument cDoc5).map (·.key) = ["m"] := by
  decide

/-- A fold whose step fixes every element of the list leaves any start
value unchanged. -/
theorem foldl_fixed {α β : Type} (f : β → α → β) (l : List α)
    (h : ∀ a ∈ l, ∀ b, f b a = b) : ∀ b, l.foldl f b = b := by
  induction l with
  | nil => intro b; rfl
  | cons a t ih =>
    intro b
    rw [List.foldl_cons, h a (List.mem_cons_self a t) b]
    exact ih (fun x hx b => h x (List.mem_cons_of_mem a hx) b) b

/-- A list-accumulating fold whose step only appends keeps every element
of the start value. -/
theorem mem_foldl_of_mem_acc {α β : Type} (f : List β → α → List β)
    (hmono : ∀ acc a, ∃ t, f acc a = acc ++ t) :
    ∀ (l : List α) (acc : List β) (b : β), b ∈ acc → b ∈ l.foldl f acc := by
  intro l
  induction l with
  | nil => intro acc b hb; simpa using hb
  | cons a t ih =>
    intro acc b hb
    rw [List.foldl_cons]
    rcases hmono acc a with ⟨tl, htl⟩
    exact ih (f acc a) b (by rw [htl]; exact List.mem_append_left tl hb)

/-- A list-accumulating fold whose step only appends contains whatever
the step contributes for any element of the list. -/
theorem mem_foldl_of_step {α β : Type} (f : List β → α → List β)
    (hmono : ∀ acc a, ∃ t, f acc a = acc ++ t)
    (l : List α) (a : α) (b : β) (hb : ∀ acc, b ∈ f acc a) :
    ∀ acc, a ∈ l → b ∈ l.foldl f acc := by
  induction l with
  | nil => intro acc ha; exact absurd ha (List.not_mem_nil a)
  | cons x t ih =>
    intro acc ha
    rw [List.foldl_cons]
    rcases List.mem_cons.mp ha with h | h
    · subst h
      exact mem_foldl_of_mem_acc f hmono t (f acc a) b (hb acc)
    · exact ih (f acc x) h

/-- C5 as amended: in any file whose class/interface/trait/enum
declaration matches all have a missing or unbalanced body brace, the
extractor records no body span and contributes no class symbol and no
member-keyed symbol — its whole output collapses to the top-level
scans over the full text — and every `function` declaration match,
including one nested inside such an unbalanced body, is indexed under
its bare name as a free function. -/
theorem unbalancedBraceSkip_amended (doc : Document)
    (hunb : ∀ cm ∈ scanAll classDeclStep doc.text.toList,
      braceEndForClassMatch doc.text.toList cm = none) :
    extractPhpSymbolsFromDocument doc = extractPhpTopLevelOnly doc ∧
    ∀ m ∈ scanAll funcDeclStep doc.text.toList,
      (⟨m.name, ⟨doc.uri, positionAt doc.text.toList m.nameIndex⟩,
        some SymbolKind.function,
        extractPhpFunctionSignatureNearOffset doc.text.toList m.nameIndex,
        none⟩ : PhpSymbol) ∈ extractPhpSymbolsFromDocument doc := by
  have heq : extractPhpSymbolsFromDocument doc = extractPhpTopLevelOnly doc := by
    unfold extractPhpSymbolsFromDocument
    dsimp only
    generalize hl : scanAll classDeclStep doc.text.toList = l
    rw [hl] at hunb
    clear hl
    revert hunb
    induction l with
    | nil =>
      intro _
      dsimp only [List.foldl_nil]
      simp only [List.any_nil, Bool.not_false, List.filter_true]
      unfold extractPhpTopLevelOnly
      dsimp only
      rw [List.nil_append]
    | cons cm t ih =>
      intro hunb
      have hcm := hunb cm (List.mem_cons_self cm t)
      unfold braceEndForClassMatch at hcm
      rw [List.foldl_cons]
      dsimp only
      cases hio : indexOfCharFrom doc.text.toList chLBrace cm.matchIndex with
      | none =>
        exact ih (fun x hx => hunb x (List.mem_cons_of_mem cm hx))
      | some bs =>
        rw [hio] at hcm
        dsimp only at hcm
        dsimp only
        rw [hcm]
        exact ih (fun x hx => hunb x (List.mem_cons_of_mem cm hx))
  refine ⟨heq, ?_⟩
  intro m hm
  rw [heq]
  unfold extractPhpTopLevelOnly
  dsimp only
  apply List.mem_append_left
  apply List.mem_append_left
  refine mem_foldl_of_step _ ?_ _ m _ ?_ [] hm
  · intro acc a
    dsimp only
    split
    · exact ⟨_, List.append_assoc _ _ _⟩
    · exact ⟨_, rfl⟩
  · intro acc
    dsimp only
    split
    · simp
    · simp

/-- C5 amended witness: for the unbalanced-brace document itself, the
extraction equals the pure top-level scan, and the nested method is the
single extracted symbol, keyed `m` with kind function. -/
theorem unbalancedBraceSkip_amended_witness :
    extractPhpSymbolsFromDocument cDoc5 = extractPhpTopLevelOnly cDoc5 ∧
    (extractPhpSymbolsFromDocument cDoc5).map (fun s => (s.key, s.kind)) =
      [("m", some SymbolKind.function)] := by
  have h := unbalancedBraceSkip_amended cDoc5 (by decide)
  exact ⟨h.1, by decide⟩

/-- C7: member completion after edit.  Indexing `class C { public $foo; }`
gives `membersOf("C").properties = ["foo"]` and stamps the cache with
the index version; after re-indexing with `$bar`, the stale cache entry
is bypassed (the version moved on) and the recomputed properties are
`["bar"]`, without `foo`. -/
theorem memberCompletionAfterEdit :
    cM1.1.properties = ["foo"] ∧
    cM1.2.membersCache.get "C" = some ⟨cS1.version, cM1.1⟩ ∧
    cS3.version ≠ cS1.version ∧
    cM2.1.properties = ["bar"] ∧
    "foo" ∉ cM2.1.properties := by
  refine ⟨?_, ?_, ?_, ?_, ?_⟩ <;> decide

/-- C9: at the failing input — a docblock annotating `$x: string`
directly above the assignment `$x = [1];` — the inference map reports
the shape-inferred type `array` for `$x`, not the annotated `string`
(the docblock loop contributes nothing, and the assignment loop runs
after it and overwrites). -/
theorem docAnnotationPrecedence_divergence :
    (inferPhpVariableTypes JsMap.empty cDoc9 cPos9).get "$x" = some "array" ∧
    (parsePhpDocblock cDoc9Block.toList).params.get "$x" = some "string" ∧
    (some "array" : Option String) ≠ some "string" := by
  refine ⟨?_, ?_, ?_⟩ <;> decide

/-- C3: local-before-global.  When the cursor reference is a plain word
`w` (no route name at the position) and the file's own text contains a
`function`-declaration match for `w`, the definition provider returns a
single location inside this file, computed by `findLocalPhpDefinition`
from the text alone — the same location for every route index and every
workspace index state, so it can never be another file's location. -/
theorem localBeforeGlobal (doc : Document) (pos : Position) (w : String)
    (hroute : getLaravelRouteNameAtPosition doc pos = "")
    (href : getPhpReferenceAtPosition doc pos = some (.plain w))
    (hw : w ≠ "")
    (hfunc : (scanFirst (funcDeclForStep (lastBackslashSegment w).toList)
      doc.text.toList).isSome = true) :
    ∃ loc : Location, loc.uri = doc.uri ∧
      findLocalPhpDefinition doc pos (.plain w) = some loc ∧
      ∀ (routeIndex : JsMap String (List Location)) (st : IndexState),
        providePhpDefinition routeIndex st doc pos =
          some (DefinitionResult.single loc) := by
  obtain ⟨loc, hloc, huri⟩ :
      ∃ loc : Location, findLocalPhpDefinition doc pos (.plain w) = some loc ∧
        loc.uri = doc.uri := by
    unfold findLocalPhpDefinition
    dsimp only
    rw [if_neg hw]
    rcases h1 : scanFirst (classDeclForStep (lastBackslashSegment w).toList)
        doc.text.toList with _ | i
    · rcases h2 : scanFirst (funcDeclForStep (lastBackslashSegment w).toList)
          doc.text.toList with _ | j
      · rw [h2] at hfunc
        cases hfunc
      · refine ⟨⟨doc.uri, positionAt doc.text.toList j⟩, ?_, rfl⟩
        simp only [h1, h2]
    · refine ⟨⟨doc.uri, positionAt doc.text.toList i⟩, ?_, rfl⟩
      simp only [h1]
  refine ⟨loc, huri, hloc, ?_⟩
  intro routeIndex st
  unfold providePhpDefinition
  simp only [hroute, href]
  simp [hloc]

/-- C3 witness: at the concrete file declaring `function f` with a call
`f()` on line 2 and a workspace state holding an unrelated `f` from
another file, the provider resolves to a location in this file. -/
theorem localBeforeGlobal_witness :
    ∃ loc : Location, loc.uri = cDoc3.uri ∧
      providePhpDefinition JsMap.empty cOtherFileState cDoc3 cPos3 =
        some (DefinitionResult.single loc) := by
  obtain ⟨loc, huri, _, hall⟩ :=
    localBeforeGlobal cDoc3 cPos3 "f" (by decide) (by decide) (by decide)
      (by decide)
  exact ⟨loc, huri, hall JsMap.empty cOtherFileState⟩

/-- C6: the Reference Index's `ensureBuilt` is a no-op exactly when the
version it recorded equals the symbol index's current version; otherwise
it rebuilds wholesale from the current files and records that version.
Scenario: with the index built at version 1 against the old file B (one
call `f()`), a rebuild at version 2 against the edited B lists the new
call site of `f` exactly once (the stale index did not contain it). -/
theorem referenceIndexRebuild :
    (∀ (rst : RefIndexState) (v : Nat) (files : List Document),
      rst.refVersion = (v : Int) →
      ensurePhpWorkspaceReferenceIndex rst v files = rst) ∧
    (∀ (rst : RefIndexState) (v : Nat) (files : List Document),
      rst.refVersion ≠ (v : Int) →
      ensurePhpWorkspaceReferenceIndex rst v files =
        ⟨buildPhpWorkspaceReferenceIndex files, (v : Int)⟩) ∧
    ((cRefState1.refIndex.get "fn:f").getD []).count cNewCallLoc = 0 ∧
    ((cRefState2.refIndex.get "fn:f").getD []).count cNewCallLoc = 1 ∧
    cRefState2.refVersion = (2 : Int) := by
  refine ⟨?_, ?_, ?_, ?_, ?_⟩
  · intro rst v files h
    unfold ensurePhpWorkspaceReferenceIndex
    rw [if_pos h]
  · intro rst v files h
    unfold ensurePhpWorkspaceReferenceIndex
    rw [if_neg h]
  · decide
  · decide
  · decide

/-- C6 witness: the two version laws applied at concrete states — a
matching version leaves the state untouched, a mismatch rebuilds and
records the new version. -/
theorem referenceIndexRebuild_witness :
    ensurePhpWorkspaceReferenceIndex cRefState5 5 [] = cRefState5 ∧
    ensurePhpWorkspaceReferenceIndex initialRefIndexState 0 [] =
      ⟨buildPhpWorkspaceReferenceIndex [], (0 : Int)⟩ :=
  ⟨referenceIndexRebuild.1 cRefState5 5 [] (by decide),
   referenceIndexRebuild.2.1 initialRefIndexState 0 [] (by decide)⟩

theorem scanFirstAux_payload {α : Type} (P : α → Prop) (step : RegexStep α)
    (hstep : ∀ prev s off a n, step prev s off = some (a, n) → P a) :
    ∀ (fuel : Nat) (prev : Option Char) (s : List Char) (off : Nat) (a : α),
      scanFirstAux step fuel prev s off = some a → P a := by
  intro fuel
  induction fuel with
  | zero =>
    intro prev s off a h
    cases h
  | succ n ih =>
    intro prev s off a h
    match s with
    | [] =>
      rcases hs : step prev [] off with _ | p
      · rw [scanFirstAux, hs] at h
        cases h
      · rw [scanFirstAux, hs] at h
        injection h with he
        exact he ▸ hstep prev [] off p.1 p.2 (by rw [hs])
    | c :: rest =>
      rcases hs : step prev (c :: rest) off with _ | p
      · rw [scanFirstAux, hs] at h
        exact ih (some c) rest (off + 1) a h
      · rw [scanFirstAux, hs] at h
        injection h with he
        exact he ▸ hstep prev (c :: rest) off p.1 p.2 (by rw [hs])

theorem returnTagStep_ne_empty (prev : Option Char) (s : List Char) (off : Nat)
    (r : String) (n : Nat) (h : returnTagStep prev s off = some (r, n)) :
    r ≠ "" := by
  match s with
  | [] =>
    unfold returnTagStep at h
    cases h
  | c :: s1 =>
    unfold returnTagStep at h
    dsimp only at h
    by_cases hc : c ≠ '@'
    · rw [if_pos hc] at h
      cases h
    · rw [if_neg hc] at h
      rcases htag : (match eatLitCI "return".toList (eatWs s1) with
          | some r => some r
          | none =>
            match eatLitCI "phpstan-return".toList (eatWs s1) with
            | some r => some r
            | none => eatLitCI "psalm-return".toList (eatWs s1)).bind eatWs1
          with _ | s3
      · rw [htag] at h
        cases h
      · rw [htag] at h
        dsimp only at h
        by_cases hty : (s3.takeWhile (fun x => !isJsSpaceChar x)).length = 0
        · rw [if_pos hty] at h
          cases h
        · rw [if_neg hty] at h
          injection h with he
          have h1 : String.mk (s3.takeWhile (fun x => !isJsSpaceChar x)) = r :=
            congrArg Prod.fst he
          intro hemp
          rw [← h1] at hemp
          have h2 : (s3.takeWhile (fun x => !isJsSpaceChar x)) = [] :=
            congrArg String.data hemp
          exact hty (by rw [h2]; rfl)

theorem scanFirst_returnTag_ne_empty (l : List Char) (r : String)
    (h : scanFirst returnTagStep l = some r) : r ≠ "" :=
  scanFirstAux_payload (· ≠ "") returnTagStep
    (fun prev s off a n hs => returnTagStep_ne_empty prev s off a n hs)
    (l.length + 1) none l 0 r h

theorem parsePhpDocblock_foldl (lines : List (List Char)) (acc : PhpDocInfo)
    (name : String) :
    ((lines.foldl (fun acc line =>
      let acc := match scanFirst paramTagStep line with
        | some (nm, ty) => { acc with params := acc.params.set nm ty }
        | none => acc
      match scanFirst returnTagStep line with
      | some r => if acc.returns = "" then { acc with returns := r } else acc
      | none => acc) acc).params.get name =
      (match lastParamAnn lines name with
       | some t => some t
       | none => acc.params.get name)) ∧
    ((lines.foldl (fun acc line =>
      let acc := match scanFirst paramTagStep line with
        | some (nm, ty) => { acc with params := acc.params.set nm ty }
        | none => acc
      match scanFirst returnTagStep line with
      | some r => if acc.returns = "" then { acc with returns := r } else acc
      | none => acc) acc).returns =
      if acc.returns = "" then firstReturnAnn lines else acc.returns) := by
  induction lines generalizing acc with
  | nil =>
    simp only [List.foldl_nil]
    refine ⟨rfl, ?_⟩
    by_cases h : acc.returns = ""
    · rw [if_pos h]
      exact h
    · rw [if_neg h]
  | cons l rest ih =>
    simp only [List.foldl_cons]
    have hlastcons : lastParamAnn (l :: rest) name =
        (match lastParamAnn rest name with
         | some t => some t
         | none =>
           match scanFirst paramTagStep l with
           | some (nm, ty) => if nm = name then some ty else none
           | none => none) := rfl
    have hfirstcons : firstReturnAnn (l :: rest) =
        (match scanFirst returnTagStep l with
         | some r => r
         | none => firstReturnAnn rest) := rfl
    constructor
    · rw [(ih _).1, hlastcons]
      rcases hrest : lastParamAnn rest name with _ | t
      · rcases hl : scanFirst paramTagStep l with _ | p
        · simp only [hl]
          rcases hr : scanFirst returnTagStep l with _ | r
          · simp only [hr]
          · simp only [hr]
            try dsimp only
            split <;> rfl
        · obtain ⟨nm, ty⟩ := p
          simp only [hl]
          rcases hr : scanFirst returnTagStep l with _ | r
          · simp only [hr]
            try dsimp only
            by_cases hn : nm = name
            · subst hn
              rw [if_pos rfl, jsmap_get_set_self]
            · rw [if_neg hn, jsmap_get_set_ne _ _ _ _ (fun e => hn e.symm)]
          · simp only [hr]
            try dsimp only
            split <;>
              (try dsimp only
               by_cases hn : nm = name
               · subst hn
                 rw [if_pos rfl, jsmap_get_set_self]
               · rw [if_neg hn, jsmap_get_set_ne _ _ _ _ (fun e => hn e.symm)])
      · simp only [hrest]
    · rw [(ih _).2, hfirstcons]
      rcases hl : scanFirst paramTagStep l with _ | p
      · simp only [hl]
        rcases hr : scanFirst returnTagStep l with _ | r
        · simp only [hr]
        · simp only [hr]
          have hrne := scanFirst_returnTag_ne_empty l r hr
          by_cases h : acc.returns = ""
          · simp [h, hrne]
          · simp [h]
      · obtain ⟨nm, ty⟩ := p
        simp only [hl]
        rcases hr : scanFirst returnTagStep l with _ | r
        · simp only [hr]
        · simp only [hr]
          have hrne := scanFirst_returnTag_ne_empty l r hr
          by_cases h : acc.returns = ""
          · simp [h, hrne]
          · simp [h]

/-- C8 counterexample: in a block annotating the same parameter twice
(`@param int $x` then `@param string $x`), the recorded type is the
LAST annotation's `string`, not the first one's `int`. -/
theorem docParamFirstWins_counterexample :
    (parsePhpDocblock cDoc8.toList).params.get "$x" ≠ some "int" ∧
    (parsePhpDocblock cDoc8.toList).params.get "$x" = some "string" := by
  refine ⟨?_, ?_⟩ <;> decide

/-- C8 as amended: per parameter, every matching annotation line
overwrites the recorded type, so the LAST matching annotation in the
block wins; for the return type the FIRST matching annotation wins. -/
theorem docblockAnnotationRules (d : List Char) (name : String) :
    (parsePhpDocblock d).params.get name = lastParamAnn (docLinesOf d) name ∧
    (parsePhpDocblock d).returns = firstReturnAnn (docLinesOf d) := by
  by_cases h : d.length = 0
  · have hd : d = [] := List.length_eq_zero.mp h
    subst hd
    exact ⟨rfl, rfl⟩
  · unfold parsePhpDocblock docLinesOf
    rw [if_neg h, if_neg h]
    obtain ⟨h1, h2⟩ := parsePhpDocblock_foldl (splitDocLines d) ⟨JsMap.empty, ""⟩ name
    constructor
    · rw [h1]
      rcases lastParamAnn (splitDocLines d) name with _ | t
      · rfl
      · rfl
    · rw [h2]
      rfl

theorem mem_addToSetList (l : List String) (x y : String) :
    y ∈ addToSetList l x ↔ y ∈ l ∨ y = x := by
  unfold addToSetList
  split
  · next hx =>
    constructor
    · exact Or.inl
    · rintro (h | h)
      · exact h
      · exact h ▸ hx
  · simp

theorem mem_insertSorted (x y : String) (l : List String) :
    y ∈ insertSorted x l ↔ y = x ∨ y ∈ l := by
  induction l with
  | nil => simp [insertSorted]
  | cons z rest ih =>
    unfold insertSorted
    split
    · simp
    · simp only [List.mem_cons, ih]
      tauto

theorem mem_sortStrings (y : String) (l : List String) :
    y ∈ sortStrings l ↔ y ∈ l := by
  induction l with
  | nil => simp [sortStrings]
  | cons x rest ih =>
    unfold sortStrings
    rw [mem_insertSorted, ih]
    simp

theorem membersScanKey_methods (ck cn : String)
    (acc : List String × List String × List String) (key : String) :
    (membersScanKey ck cn acc key).1 =
      if (jsStartsWith key (ck ++ "::") || jsStartsWith key (cn ++ "::")) = true ∧
          String.mk (lastSplitPiece key.toList "::".toList) ≠ "" ∧
          isConstMemberName (String.mk (lastSplitPiece key.toList "::".toList)) = false
      then addToSetList acc.1 (String.mk (lastSplitPiece key.toList "::".toList))
      else acc.1 := by
  obtain ⟨ms, ps, cs⟩ := acc
  unfold membersScanKey
  dsimp only
  by_cases hpre : (jsStartsWith key (ck ++ "::") || jsStartsWith key (cn ++ "::")) = true
  · rw [if_pos hpre]
    by_cases hmem : String.mk (lastSplitPiece key.toList "::".toList) ≠ ""
    · rw [if_pos hmem]
      by_cases hconst :
          isConstMemberName (String.mk (lastSplitPiece key.toList "::".toList)) = true
      · rw [if_pos hconst,
            if_neg (fun hand => by rw [hand.2.2] at hconst; exact Bool.noConfusion hconst)]
      · rw [if_neg hconst]
        have hfalse :
            isConstMemberName (String.mk (lastSplitPiece key.toList "::".toList)) = false := by
          simpa using hconst
        rw [if_pos ⟨hpre, hmem, hfalse⟩]
    · rw [if_neg hmem, if_neg (fun hand => hmem hand.2.1)]
  · rw [if_neg hpre, if_neg (fun hand => hpre hand.1)]

theorem membersScanKey_constants (ck cn : String)
    (acc : List String × List String × List String) (key : String) :
    (membersScanKey ck cn acc key).2.2 =
      if (jsStartsWith key (ck ++ "::") || jsStartsWith key (cn ++ "::")) = true ∧
          String.mk (lastSplitPiece key.toList "::".toList) ≠ "" ∧
          isConstMemberName (String.mk (lastSplitPiece key.toList "::".toList)) = true
      then addToSetList acc.2.2 (String.mk (lastSplitPiece key.toList "::".toList))
      else acc.2.2 := by
  obtain ⟨ms, ps, cs⟩ := acc
  unfold membersScanKey
  dsimp only
  by_cases hpre : (jsStartsWith key (ck ++ "::") || jsStartsWith key (cn ++ "::")) = true
  · rw [if_pos hpre]
    by_cases hmem : String.mk (lastSplitPiece key.toList "::".toList) ≠ ""
    · rw [if_pos hmem]
      by_cases hconst :
          isConstMemberName (String.mk (lastSplitPiece key.toList "::".toList)) = true
      · rw [if_pos hconst, if_pos ⟨hpre, hmem, hconst⟩]
      · rw [if_neg hconst, if_neg (fun hand => hconst hand.2.2)]
    · rw [if_neg hmem, if_neg (fun hand => hmem hand.2.1)]
  · rw [if_neg hpre, if_neg (fun hand => hpre hand.1)]

theorem membersScanKey_fold_mem (ck cn : String) (keys : List String)
    (acc : List String × List String × List String) (m : String) :
    (m ∈ (keys.foldl (membersScanKey ck cn) acc).1 ↔
      m ∈ acc.1 ∨ ∃ key ∈ keys,
        (jsStartsWith key (ck ++ "::") || jsStartsWith key (cn ++ "::")) = true ∧
        String.mk (lastSplitPiece key.toList "::".toList) = m ∧ m ≠ "" ∧
        isConstMemberName m = false) ∧
    (m ∈ (keys.foldl (membersScanKey ck cn) acc).2.2 ↔
      m ∈ acc.2.2 ∨ ∃ key ∈ keys,
        (jsStartsWith key (ck ++ "::") || jsStartsWith key (cn ++ "::")) = true ∧
        String.mk (lastSplitPiece key.toList "::".toList) = m ∧ m ≠ "" ∧
        isConstMemberName m = true) := by
  induction keys generalizing acc with
  | nil => simp
  | cons k0 rest ih =>
    simp only [List.foldl_cons]
    obtain ⟨ih1, ih2⟩ := ih (membersScanKey ck cn acc k0)
    constructor
    · rw [ih1, membersScanKey_methods]
      by_cases hcond :
          (jsStartsWith k0 (ck ++ "::") || jsStartsWith k0 (cn ++ "::")) = true ∧
          String.mk (lastSplitPiece k0.toList "::".toList) ≠ "" ∧
          isConstMemberName (String.mk (lastSplitPiece k0.toList "::".toList)) = false
      · rw [if_pos hcond, mem_addToSetList]
        constructor
        · rintro ((h | h) | h)
          · exact Or.inl h
          · exact Or.inr ⟨k0, List.mem_cons_self _ _,
              hcond.1, h.symm, h ▸ hcond.2.1, h ▸ hcond.2.2⟩
          · obtain ⟨key, hk, hx⟩ := h
            exact Or.inr ⟨key, List.mem_cons_of_mem _ hk, hx⟩
        · rintro (h | ⟨key, hk, hx⟩)
          · exact Or.inl (Or.inl h)
          · rcases List.mem_cons.mp hk with he | he
            · subst he
              exact Or.inl (Or.inr hx.2.1.symm)
            · exact Or.inr ⟨key, he, hx⟩
      · rw [if_neg hcond]
        constructor
        · rintro (h | ⟨key, hk, hx⟩)
          · exact Or.inl h
          · exact Or.inr ⟨key, List.mem_cons_of_mem _ hk, hx⟩
        · rintro (h | ⟨key, hk, hx⟩)
          · exact Or.inl h
          · rcases List.mem_cons.mp hk with he | he
            · subst he
              exact absurd ⟨hx.1, hx.2.1 ▸ hx.2.2.1, hx.2.1 ▸ hx.2.2.2⟩ hcond
            · exact Or.inr ⟨key, he, hx⟩
    · rw [ih2, membersScanKey_constants]
      by_cases hcond :
          (jsStartsWith k0 (ck ++ "::") || jsStartsWith k0 (cn ++ "::")) = true ∧
          String.mk (lastSplitPiece k0.toList "::".toList) ≠ "" ∧
          isConstMemberName (String.mk (lastSplitPiece k0.toList "::".toList)) = true
      · rw [if_pos hcond, mem_addToSetList]
        constructor
        · rintro ((h | h) | h)
          · exact Or.inl h
          · exact Or.inr ⟨k0, List.mem_cons_self _ _,
              hcond.1, h.symm, h ▸ hcond.2.1, h ▸ hcond.2.2⟩
          · obtain ⟨key, hk, hx⟩ := h
            exact Or.inr ⟨key, List.mem_cons_of_mem _ hk, hx⟩
        · rintro (h | ⟨key, hk, hx⟩)
          · exact Or.inl (Or.inl h)
          · rcases List.mem_cons.mp hk with he | he
            · subst he
              exact Or.inl (Or.inr hx.2.1.symm)
            · exact Or.inr ⟨key, he, hx⟩
      · rw [if_neg hcond]
        constructor
        · rintro (h | ⟨key, hk, hx⟩)
          · exact Or.inl h
          · exact Or.inr ⟨key, List.mem_cons_of_mem _ hk, hx⟩
        · rintro (h | ⟨key, hk, hx⟩)
          · exact Or.inl h
          · rcases List.mem_cons.mp hk with he | he
            · subst he
              exact absurd ⟨hx.1, hx.2.1 ▸ hx.2.2.1, hx.2.1 ▸ hx.2.2.2⟩ hcond
            · exact Or.inr ⟨key, he, hx⟩

theorem computePhpMembersForClass_mem (st : IndexState) (ck m : String) :
    (m ∈ (computePhpMembersForClass st ck).constants ↔
      hasStaticMemberKey st ck m ∧ isConstMemberName m = true) ∧
    (m ∈ (computePhpMembersForClass st ck).methods ↔
      hasStaticMemberKey st ck m ∧ isConstMemberName m = false) := by
  have hconsts : (computePhpMembersForClass st ck).constants =
      sortStrings ((st.index.keys.foldl
        (membersScanKey ck (lastBackslashSegment ck)) ([], [], [])).2.2) := rfl
  have hmethods : (computePhpMembersForClass st ck).methods =
      sortStrings ((st.index.keys.foldl
        (membersScanKey ck (lastBackslashSegment ck)) ([], [], [])).1) := rfl
  obtain ⟨hf1, hf2⟩ :=
    membersScanKey_fold_mem ck (lastBackslashSegment ck) st.index.keys ([], [], []) m
  constructor
  · rw [hconsts, mem_sortStrings, hf2]
    simp only [List.not_mem_nil, false_or]
    unfold hasStaticMemberKey
    constructor
    · rintro ⟨key, hk, hpre, hm, hne, hic⟩
      exact ⟨⟨key, hk, hpre, hm, hne⟩, hic⟩
    · rintro ⟨⟨key, hk, hpre, hm, hne⟩, hic⟩
      exact ⟨key, hk, hpre, hm, hne, hic⟩
  · rw [hmethods, mem_sortStrings, hf1]
    simp only [List.not_mem_nil, false_or]
    unfold hasStaticMemberKey
    constructor
    · rintro ⟨key, hk, hpre, hm, hne, hic⟩
      exact ⟨⟨key, hk, hpre, hm, hne⟩, hic⟩
    · rintro ⟨⟨key, hk, hpre, hm, hne⟩, hic⟩
      exact ⟨key, hk, hpre, hm, hne, hic⟩

theorem getPhpMembersForClass_fresh (st : IndexState) (q : String)
    (hq : stripLeadingBackslashes q ≠ "")
    (hfresh : membersCacheFresh st (stripLeadingBackslashes q)) :
    (getPhpMembersForClass st q).1 =
      computePhpMembersForClass st (stripLeadingBackslashes q) := by
  unfold getPhpMembersForClass
  dsimp only
  rw [if_neg hq]
  rcases h : st.membersCache.get (stripLeadingBackslashes q) with _ | e
  · simp only [h]
  · simp only [h]
    rw [if_neg (hfresh e h)]

/-- C10: `membersOf` classifies a member found under a `Class::member`
key as a class constant exactly when the member name matches
`^[A-Z_][A-Z0-9_]*$`, and as a method otherwise — so an all-uppercase
method name lands in the constants list and never in the methods
list.  (The cache hypothesis says no entry stamped with the current
version exists, so the classification path runs.) -/
theorem memberClassification (st : IndexState) (q m : String)
    (hq : stripLeadingBackslashes q ≠ "")
    (hfresh : membersCacheFresh st (stripLeadingBackslashes q)) :
    (m ∈ (getPhpMembersForClass st q).1.constants ↔
      hasStaticMemberKey st (stripLeadingBackslashes q) m ∧
        isConstMemberName m = true) ∧
    (m ∈ (getPhpMembersForClass st q).1.methods ↔
      hasStaticMemberKey st (stripLeadingBackslashes q) m ∧
        isConstMemberName m = false) ∧
    (isConstMemberName m = true → m ∉ (getPhpMembersForClass st q).1.methods) := by
  rw [getPhpMembersForClass_fresh st q hq hfresh]
  obtain ⟨h1, h2⟩ := computePhpMembersForClass_mem st (stripLeadingBackslashes q) m
  refine ⟨h1, h2, ?_⟩
  intro hconst hmem
  have := (h2.mp hmem).2
  rw [hconst] at this
  exact Bool.noConfusion this

/-- C10 witness: in the index of `class K { function FOO() {} function
bar() {} }`, the all-uppercase method name `FOO` is reported as a class
constant and not as a method. -/
theorem memberClassification_witness :
    "FOO" ∈ (getPhpMembersForClass cS10 "K").1.constants ∧
    "FOO" ∉ (getPhpMembersForClass cS10 "K").1.methods := by
  obtain ⟨h1, _, h3⟩ := memberClassification cS10 "K" "FOO" (by decide)
    (fun e he => by
      rw [show cS10.membersCache.get (stripLeadingBackslashes "K") = none from by decide]
        at he
      cases he)
  refine ⟨h1.mpr ⟨?_, by decide⟩, h3 (by decide)⟩
  exact ⟨"K::FOO", by decide, by decide, by decide, by decide⟩
